import Mathlib

/-!
# DlistLib: a shallow embedding of `src/dlist.c`

The C program keeps its nodes on the heap and links them by raw pointers, so the
embedding is a step function on an explicit machine state:

* a node pointer is a natural number, `0` being `NULL`;
* a `void *` value pointer is an `Option V`, `none` being `NULL`;
* the heap is a list of cells, the node at address `p + 1` living in cell `p`;
  a cell is `none` once the node was given back with `free`;
* an operation that dereferences a pointer which is `NULL`, was never allocated
  or was freed has no defined result in C: it returns `none` here.  The same
  `none` is returned when a loop would not terminate and when an enabled
  `DLIST_ASSERT` fails;
* a `key_compare` callback is a function that may have no result: the default
  `dlist_compare_string` is `strcmp`, which C leaves undefined on `NULL`, so a search
  that hands it a `NULL` value or key has the result `none`;
* `size_t` is 64 bits wide: `num_entries` is kept modulo `2 ^ 64`.
-/

namespace DlistLib

/-! ## Data model -/

/-- The C `struct dlist_node`: the two links and the type-erased value pointer. -/
structure dlist_node (V : Type) where
  prev : Nat
  next : Nat
  data : Option V
deriving DecidableEq, Repr

/-- The node heap: cell `p` holds the node at address `p + 1`, or `none` once freed. -/
abbrev Heap (V : Type) := List (Option (dlist_node V))

/-- The type of a `key_compare` callback, an `int (*)(const void *, const void *)`.  A
call has no defined result when the callback dereferences a pointer it must not, as
`strcmp` does on `NULL`: the result is then `none`. -/
abbrev Cmp (V : Type) := Option V → Option V → Option Int

/-- The C `struct dlist` of `dlist.h`.  The two ownership callbacks are only ever tested
for being `NULL`, so each is kept as the flag "is installed". -/
structure dlist (V : Type) where
  num_entries : Nat
  head : Nat
  tail : Nat
  key_compare : Cmp V
  key_alloc : Bool
  key_free : Bool

/-- The machine state an operation runs in: the caller's `struct dlist`, the node heap,
and the log of the values handed to `key_free` so far, oldest first. -/
structure State (V : Type) where
  list : dlist V
  mem : Heap V
  released : List (Option V)

/-- The modulus of `size_t` arithmetic. -/
def SIZE_MOD : Nat := 2 ^ 64

/-- The statement `n--` on a `size_t`: zero wraps around to `SIZE_MAX`. -/
def count_dec (n : Nat) : Nat := if n = 0 then SIZE_MOD - 1 else n - 1

/-- The statement `n++` on a `size_t`: `SIZE_MAX` wraps around to zero. -/
def count_inc (n : Nat) : Nat := (n + 1) % SIZE_MOD

/-! ## Heap primitives -/

/-- Dereference of a node pointer: `none` for `NULL`, an address never allocated, or a
freed node. -/
def Heap.read {V : Type} (m : Heap V) (p : Nat) : Option (dlist_node V) :=
  if p = 0 then none else m.getD (p - 1) none

/-- Assignment through a node pointer, `p->field = ...`, given as the change `f` of the
node; undefined when `p` cannot be dereferenced. -/
def Heap.store {V : Type} (m : Heap V) (p : Nat) (f : dlist_node V → dlist_node V) :
    Option (Heap V) :=
  match m.read p with
  | none => none
  | some nd => some (m.set (p - 1) (some (f nd)))

/-- The call `calloc(1, sizeof(struct dlist_node))`: a zeroed node at an address that was
never used before.  Allocation is taken to succeed. -/
def calloc {V : Type} (m : Heap V) : Nat × Heap V :=
  (m.length + 1, m ++ [some ⟨0, 0, none⟩])

/-- The call `free(p)` on a node pointer; undefined unless `p` is a live node. -/
def free {V : Type} (m : Heap V) (p : Nat) : Option (Heap V) :=
  match m.read p with
  | none => none
  | some _ => some (m.set (p - 1) none)

/-- The value pointer stored in the node at `p` (`NULL` when `p` is not a live node). -/
def dataAt {V : Type} (m : Heap V) (p : Nat) : Option V :=
  match m.read p with
  | some nd => nd.data
  | none => none

/-! ## Utility functions of `dlist.c` -/

/-- The loop of `dlist_find_entry`, `for (; entry; ) { ... entry = entry->next; }`, run
for at most `fuel` iterations; the result is the node found or `0` for `NULL`. -/
def find_loop {V : Type} (cmp : Cmp V) (m : Heap V) (key : Option V) :
    Nat → Nat → Option Nat
  | 0, _ => none
  | fuel + 1, entry =>
    if entry = 0 then some 0
    else
      match m.read entry with
      | none => none
      | some nd =>
        match cmp key nd.data with
        | none => none
        | some c => if c = 0 then some entry else find_loop cmp m key fuel nd.next

/-- The C `dlist_find_entry`.  A chain of live nodes without a cycle has at most
`mem.length` nodes, so the loop is given `mem.length + 1` iterations. -/
def dlist_find_entry {V : Type} (s : State V) (key : Option V) : Option Nat :=
  find_loop s.list.key_compare s.mem key (s.mem.length + 1) s.list.head

/-- The C `dlist_remove_entry`: report the value to `key_free` when installed, unlink
`del_entry` by the four cases on its `prev` and `next`, free it, decrement the count. -/
def dlist_remove_entry {V : Type} (s : State V) (del_entry : Nat) : Option (State V) :=
  match s.mem.read del_entry with
  | none => none
  | some d =>
    let released := if s.list.key_free then s.released ++ [d.data] else s.released
    let linked : Option (dlist V × Heap V) :=
      if d.prev ≠ 0 then
        if d.next ≠ 0 then
          match s.mem.store d.prev (fun n => { n with next := d.next }) with
          | none => none
          | some m1 =>
            match m1.store d.next (fun n => { n with prev := d.prev }) with
            | none => none
            | some m2 => some (s.list, m2)
        else
          match s.mem.store d.prev (fun n => { n with next := 0 }) with
          | none => none
          | some m1 => some ({ s.list with tail := d.prev }, m1)
      else
        if d.next ≠ 0 then
          match s.mem.store d.next (fun n => { n with prev := 0 }) with
          | none => none
          | some m1 => some ({ s.list with head := d.next }, m1)
        else
          some ({ s.list with head := 0, tail := 0 }, s.mem)
    match linked with
    | none => none
    | some (l, m) =>
      match free m del_entry with
      | none => none
      | some m3 =>
        some { list := { l with num_entries := count_dec l.num_entries },
               mem := m3, released := released }

/-! ## Initialization and status -/

/-- The C `dlist_init`: every field of the caller's struct is overwritten, and `head` is
set to a freshly allocated zeroed node.  The library default `dlist_compare_string` is
passed in, as it only makes sense for values that are C strings. -/
def dlist_init {V : Type} (s : State V) (key_compare_cb : Option (Cmp V))
    (dlist_compare_string : Cmp V) : Int × State V :=
  let a := calloc s.mem
  (0, { list := { num_entries := 0, head := a.1, tail := 0,
                  key_compare := match key_compare_cb with
                    | some cb => cb
                    | none => dlist_compare_string,
                  key_alloc := false, key_free := false },
        mem := a.2, released := s.released })

/-- The C `dlist_set_key_alloc_func`: install or remove the ownership callbacks. -/
def dlist_set_key_alloc_func {V : Type} (s : State V) (key_alloc_cb key_free_cb : Bool) :
    State V :=
  { s with list := { s.list with key_alloc := key_alloc_cb, key_free := key_free_cb } }

/-- The C `dlist_is_empty`. -/
def dlist_is_empty {V : Type} (s : State V) : Int :=
  if s.list.head = 0 then 1 else 0

/-- The C `dlist_len`. -/
def dlist_len {V : Type} (s : State V) : Nat :=
  s.list.num_entries

/-! ## Data modification -/

/-- The C `dlist_get_data`; the state is handed back as it was, nothing is written. -/
def dlist_get_data {V : Type} (s : State V) (data : Option V) :
    Option (Option V × State V) :=
  match dlist_find_entry s data with
  | none => none
  | some entry =>
    if entry = 0 then some (none, s)
    else
      match s.mem.read entry with
      | none => none
      | some nd => some (nd.data, s)

/-- The C `dlist_remove`; `DLIST_ASSERT(key != NULL)` aborts on a `NULL` key. -/
def dlist_remove {V : Type} (s : State V) (key : Option V) :
    Option (Option V × State V) :=
  match key with
  | none => none
  | some _ =>
    match dlist_find_entry s key with
    | none => none
    | some entry =>
      if entry = 0 then some (none, s)
      else
        match s.mem.read entry with
        | none => none
        | some nd =>
          match dlist_remove_entry s entry with
          | none => none
          | some s1 => some (nd.data, s1)

/-- The C `dlist_append`. -/
def dlist_append {V : Type} (s : State V) (data : Option V) :
    Option (Option V × State V) :=
  let a := calloc s.mem
  let new_node := a.1
  match a.2.store new_node (fun n => { n with data := data }) with
  | none => none
  | some m1 =>
    let linked : Option (dlist V × Heap V) :=
      if s.list.tail ≠ 0 then
        match m1.store s.list.tail (fun n => { n with next := new_node }) with
        | none => none
        | some m2 =>
          match m2.store new_node (fun n => { n with prev := s.list.tail }) with
          | none => none
          | some m3 => some ({ s.list with tail := new_node }, m3)
      else
        some ({ s.list with head := new_node, tail := new_node }, m1)
    match linked with
    | none => none
    | some (l, m) =>
      some (data, { list := { l with num_entries := count_inc l.num_entries },
                    mem := m, released := s.released })

/-- The C `dlist_add`. -/
def dlist_add {V : Type} (s : State V) (data : Option V) :
    Option (Option V × State V) :=
  let a := calloc s.mem
  let new_node := a.1
  match a.2.store new_node (fun n => { n with data := data }) with
  | none => none
  | some m1 =>
    let linked : Option (dlist V × Heap V) :=
      if s.list.head ≠ 0 then
        match m1.store new_node (fun n => { n with next := s.list.head }) with
        | none => none
        | some m2 => some ({ s.list with head := new_node }, m2)
      else
        some ({ s.list with head := new_node, tail := new_node }, m1)
    match linked with
    | none => none
    | some (l, m) =>
      some (data, { list := { l with num_entries := count_inc l.num_entries },
                    mem := m, released := s.released })

/-! ## Iterators, `dlist_clear` and `dlist_reset` -/

/-- The C `dlist_get_entry`: `entry` itself when `entry->next` is not `NULL`, else `NULL`;
the test dereferences `entry`. -/
def dlist_get_entry {V : Type} (s : State V) (entry : Nat) : Option Nat :=
  match s.mem.read entry with
  | none => none
  | some cur => if cur.next ≠ 0 then some entry else some 0

/-- The C `dlist_iter`. -/
def dlist_iter {V : Type} (s : State V) : Option Nat :=
  if s.list.num_entries = 0 then some 0 else dlist_get_entry s s.list.head

/-- The C `dlist_iter_next`. -/
def dlist_iter_next {V : Type} (s : State V) (iter : Nat) : Option Nat :=
  if iter = 0 then some 0
  else
    match s.mem.read iter with
    | none => none
    | some entry => dlist_get_entry s entry.next

/-- The C `dlist_iter_get_data`. -/
def dlist_iter_get_data {V : Type} (s : State V) (iter : Nat) : Option (Option V) :=
  if iter = 0 then some none
  else
    match s.mem.read iter with
    | none => none
    | some entry => some entry.data

/-- The loop of `dlist_free_data`, from the iterator `iter`, for at most `fuel` rounds:
each round hands the value under the iterator to `key_free` and advances. -/
def free_data_loop {V : Type} : Nat → State V → Nat → Option (State V)
  | 0, _, _ => none
  | fuel + 1, s, iter =>
    if iter = 0 then some s
    else
      match dlist_iter_get_data s iter with
      | none => none
      | some d =>
        let s1 : State V := { s with released := s.released ++ [d] }
        match dlist_iter_next s1 iter with
        | none => none
        | some nxt => free_data_loop fuel s1 nxt

/-- The C `dlist_free_data`: nothing without `key_free`, else the iterator loop. -/
def dlist_free_data {V : Type} (s : State V) : Option (State V) :=
  if s.list.key_free = false then some s
  else
    match dlist_iter s with
    | none => none
    | some iter => free_data_loop (s.mem.length + 1) s iter

/-- The call `memset(p, 0, sizeof(struct dlist_node) * count)` on a node pointer: no byte
is written for `count = 0`, one node is zeroed for `count = 1`, and a larger `count`
runs past the single node that was allocated at `p`. -/
def memset_nodes {V : Type} (m : Heap V) (p : Nat) : Nat → Option (Heap V)
  | 0 => some m
  | 1 => m.store p (fun _ => ⟨0, 0, none⟩)
  | _ => none

/-- The C `dlist_clear`: `num_entries` is zeroed before `dlist_len` is read for the size
of the `memset`. -/
def dlist_clear {V : Type} (s : State V) : Option (State V) :=
  match dlist_free_data s with
  | none => none
  | some s1 =>
    let s2 : State V := { s1 with list := { s1.list with num_entries := 0 } }
    match memset_nodes s2.mem s2.list.head (dlist_len s2) with
    | none => none
    | some m => some { s2 with mem := m }

/-- The C `dlist_reset`: `dlist_clear`, then `dlist_init` with the list's comparator. -/
def dlist_reset {V : Type} (s : State V) : Option (Int × State V) :=
  match dlist_clear s with
  | none => none
  | some s1 =>
    some (0, (dlist_init s1 (some s1.list.key_compare) s1.list.key_compare).2)

/-! ## Observation of the next-chain -/

/-- The addresses met from `p` by following `next` up to `NULL`, within `fuel` steps. -/
def chain_loop {V : Type} (m : Heap V) : Nat → Nat → Option (List Nat)
  | 0, _ => none
  | fuel + 1, p =>
    if p = 0 then some []
    else
      match m.read p with
      | none => none
      | some nd =>
        match chain_loop m fuel nd.next with
        | none => none
        | some rest => some (p :: rest)

/-- The next-chain from `head`: `some` list of node addresses exactly when following
`next` from `head` reaches `NULL` through live nodes. -/
def next_chain {V : Type} (s : State V) : Option (List Nat) :=
  chain_loop s.mem (s.mem.length + 1) s.list.head

/-- The values reached from `head` by following `next`, in that order. -/
def values {V : Type} (s : State V) : Option (List (Option V)) :=
  match next_chain s with
  | none => none
  | some ch => some (ch.map (dataAt s.mem))

/-! ## The default comparator -/

/-- The C library `strcmp` on strings without an embedded NUL: the difference of the
first two characters that differ, the end of a string counting as 0. -/
def strcmp : List Char → List Char → Int
  | [], [] => 0
  | [], b :: _ => - (b.toNat : Int)
  | a :: _, [] => (a.toNat : Int)
  | a :: as, b :: bs => if a = b then strcmp as bs else (a.toNat : Int) - (b.toNat : Int)

/-- The C `dlist_compare_string`, `return strcmp(a, b);`.  C leaves `strcmp` on a `NULL`
argument undefined, so the call has no result when `a` or `b` is `NULL`. -/
def dlist_compare_string : Cmp String
  | some a, some b => some (strcmp a.data b.data)
  | _, _ => none

/-- The search of `dlist_find_entry` as it runs over the nodes `ch` of a finite chain: the
first node whose value the comparator finds equal to `key`, `0` (for `NULL`) when it
finds none, and no result when a call of the comparator has none before that. -/
def scan {V : Type} (cmp : Cmp V) (key : Option V) (m : Heap V) : List Nat → Option Nat
  | [] => some 0
  | a :: as =>
    match cmp key (dataAt m a) with
    | none => none
    | some c => if c = 0 then some a else scan cmp key m as

/-- The same search on the list of the values of the chain: the first value the comparator
finds equal to `key`, `NULL` when it finds none, and no result when a call of the
comparator has none before that. -/
def first_match {V : Type} (cmp : Cmp V) (key : Option V) :
    List (Option V) → Option (Option V)
  | [] => some none
  | v :: vs =>
    match cmp key v with
    | none => none
    | some c => if c = 0 then some v else first_match cmp key vs

/-- A caller's `struct dlist` before `dlist_init`, with an empty node heap. -/
def blank (V : Type) (cmp : Cmp V) : State V :=
  { list := { num_entries := 0, head := 0, tail := 0, key_compare := cmp,
              key_alloc := false, key_free := false },
    mem := [], released := [] }

/-- A list right after `dlist_init(&list, key_compare_cb)` with a non-`NULL` callback. -/
def fresh {V : Type} (cmp : Cmp V) : State V :=
  (dlist_init (blank V cmp) (some cmp) cmp).2

/-! ## Linkage invariant -/

/-- The node before the first node of the part of the chain that follows `l`: the last
address of `l`, or `pred` when `l` is empty. -/
def lastOr (pred : Nat) (l : List Nat) : Nat :=
  match l.getLast? with
  | some a => a
  | none => pred

/-- The statement `Seg m pred p l q`: following `next` from `p` goes through exactly the
live nodes `l` and arrives at `q`, and the `prev` of every node of `l` is `NULL` or the
node before it (`pred` before the first one). -/
def Seg {V : Type} (m : Heap V) : Nat → Nat → List Nat → Nat → Prop
  | _, p, [], q => p = q
  | pred, p, a :: as, q =>
    p = a ∧
      match m.read a with
      | some nd => (nd.prev = 0 ∨ nd.prev = pred) ∧ Seg m a nd.next as q
      | none => False

/-- The linkage invariant of a list: the next-chain from `head` is a finite chain `ch` of
distinct live nodes, the head node's `prev` is `NULL`, every other `prev` is `NULL` or
the true predecessor, `tail` is `NULL` or the last node of the chain, and the count is a
`size_t`. -/
def Inv {V : Type} (s : State V) : Prop :=
  ∃ ch : List Nat, Seg s.mem 0 s.list.head ch 0 ∧ ch.Nodup ∧ ch.length ≤ s.mem.length ∧
    (s.list.tail = 0 ∨ ch.getLast? = some s.list.tail) ∧ s.list.num_entries < SIZE_MOD

/-- The value log after `dlist_remove_entry` took out a node holding `d`. -/
def released_after {V : Type} (s : State V) (d : Option V) : List (Option V) :=
  if s.list.key_free then s.released ++ [d] else s.released

/-- Whether the search of `dlist_remove(list, key)` stops at a node ("finds a match"). -/
def finds {V : Type} (s : State V) (key : V) : Bool :=
  match dlist_find_entry s (some key) with
  | some entry => entry != 0
  | none => false

/-! ## Reachable states and call sequences -/

/-- The states a caller can bring a list to: `dlist_init` on any struct, followed by calls
of `dlist_add`, `dlist_append`, `dlist_remove`, `dlist_clear`, `dlist_reset` and
`dlist_set_key_alloc_func` that return. -/
inductive Reachable {V : Type} : State V → Prop
  | init (s0 : State V) (cb : Option (Cmp V)) (dflt : Cmp V) :
      Reachable (dlist_init s0 cb dflt).2
  | add {s s1 : State V} (data r : Option V) :
      Reachable s → dlist_add s data = some (r, s1) → Reachable s1
  | append {s s1 : State V} (data r : Option V) :
      Reachable s → dlist_append s data = some (r, s1) → Reachable s1
  | remove {s s1 : State V} (key r : Option V) :
      Reachable s → dlist_remove s key = some (r, s1) → Reachable s1
  | clear {s s1 : State V} :
      Reachable s → dlist_clear s = some s1 → Reachable s1
  | reset {s s1 : State V} (r : Int) :
      Reachable s → dlist_reset s = some (r, s1) → Reachable s1
  | set_key_alloc_func {s : State V} (key_alloc_cb key_free_cb : Bool) :
      Reachable s → Reachable (dlist_set_key_alloc_func s key_alloc_cb key_free_cb)

/-- One call of the three editing operations; `dlist_remove` takes a non-`NULL` key. -/
inductive Edit (V : Type) where
  | add (data : Option V)
  | append (data : Option V)
  | remove (key : V)

/-- The state after one editing call. -/
def apply_edit {V : Type} (s : State V) : Edit V → Option (State V)
  | .add data =>
    match dlist_add s data with
    | some (_, s1) => some s1
    | none => none
  | .append data =>
    match dlist_append s data with
    | some (_, s1) => some s1
    | none => none
  | .remove key =>
    match dlist_remove s (some key) with
    | some (_, s1) => some s1
    | none => none

/-- The state after a sequence of editing calls, made in order. -/
def run_edits {V : Type} : State V → List (Edit V) → Option (State V)
  | s, [] => some s
  | s, e :: es =>
    match apply_edit s e with
    | some s1 => run_edits s1 es
    | none => none

/-- The number of `dlist_add` and `dlist_append` calls in a sequence. -/
def insertions {V : Type} : List (Edit V) → Nat
  | [] => 0
  | .add _ :: es => insertions es + 1
  | .append _ :: es => insertions es + 1
  | .remove _ :: es => insertions es

/-- The number of `dlist_remove` calls of a sequence, run from `s`, whose search found a
match. -/
def matched_removes {V : Type} : State V → List (Edit V) → Nat
  | _, [] => 0
  | s, e :: es =>
    let here : Nat :=
      match e with
      | .remove key => if finds s key then 1 else 0
      | _ => 0
    match apply_edit s e with
    | some s1 => here + matched_removes s1 es
    | none => here

/-! ## Concrete lists for the examples -/

/-- A comparator that is defined on every pair of pointers, `NULL` included:
`return a != b;`, equality of the two pointers themselves. -/
def compare_pointers {V : Type} [DecidableEq V] : Cmp V :=
  fun a b => some (if a = b then 0 else 1)

/-- The list of the worked example after `append("a")`, `append("b")`, `add("c")`: the
node allocated by `dlist_init` is no longer linked, the chain is `"c"`, `"a"`, `"b"`. -/
def example_list : State String :=
  { list := { num_entries := 3, head := 4, tail := 3, key_compare := dlist_compare_string,
              key_alloc := false, key_free := false },
    mem := [some ⟨0, 0, none⟩, some ⟨0, 3, some "a"⟩, some ⟨2, 0, some "b"⟩,
            some ⟨0, 2, some "c"⟩],
    released := [] }

/-- A comparator a caller may pass that accepts `NULL`, reading it as the empty string:
`strcmp(a ? a : "", b ? b : "")`. -/
def compare_string_nullsafe : Cmp String :=
  fun a b => some (strcmp (a.getD "").data (b.getD "").data)

/-- The list after `dlist_init` with the string comparator and `append("a")`. -/
def example_single : State String :=
  { list := { num_entries := 1, head := 2, tail := 2, key_compare := dlist_compare_string,
              key_alloc := false, key_free := false },
    mem := [some ⟨0, 0, none⟩, some ⟨0, 0, some "a"⟩],
    released := [] }

/-! ## Iterator removal and access -/

/-- The C `dlist_iter_remove`.  Its last statement, the call of `dlist_remove_entry`,
stands after the `return` and is never executed; the second test, `!entry`, is on the
same pointer as the first. -/
def dlist_iter_remove {V : Type} (s : State V) (iter : Nat) : Option (Nat × State V) :=
  let entry := iter
  if iter = 0 then some (0, s)
  else if entry = 0 then
    match dlist_iter_next s iter with
    | none => none
    | some nxt => some (nxt, s)
  else
    match s.mem.read entry with
    | none => none
    | some nd =>
      match dlist_get_entry s nd.next with
      | none => none
      | some nxt => some (nxt, s)

/-- The C `dlist_iter_get_key`. -/
def dlist_iter_get_key {V : Type} (s : State V) (iter : Nat) : Option (Option V) :=
  if iter = 0 then some none
  else
    match s.mem.read iter with
    | none => none
    | some entry => some entry.data

/-- The C `dlist_iter_set_data`. -/
def dlist_iter_set_data {V : Type} (s : State V) (iter : Nat) (data : Option V) :
    Option (State V) :=
  if iter = 0 then some s
  else
    match s.mem.store iter (fun n => { n with data := data }) with
    | none => none
    | some m => some { s with mem := m }

/-- The caller's loop `for (; iter; iter = dlist_iter_next(list, iter))`, from `iter`, for
at most `fuel` rounds: the values read with `dlist_iter_get_data`, in the order visited. -/
def visit_loop {V : Type} (s : State V) : Nat → Nat → Option (List (Option V))
  | 0, _ => none
  | fuel + 1, iter =>
    if iter = 0 then some []
    else
      match dlist_iter_get_data s iter with
      | none => none
      | some d =>
        match dlist_iter_next s iter with
        | none => none
        | some nxt =>
          match visit_loop s fuel nxt with
          | none => none
          | some rest => some (d :: rest)

/-- The values a full iteration visits: `dlist_iter`, then `dlist_iter_next` up to the
terminal iterator. -/
def visited {V : Type} (s : State V) : Option (List (Option V)) :=
  match dlist_iter s with
  | none => none
  | some iter => visit_loop s (s.mem.length + 1) iter

/-- The caller's loop `while (iter) iter = dlist_iter_remove(list, iter);`, from `iter`,
for at most `fuel` rounds: the number of calls made and the state at the end. -/
def iter_remove_loop {V : Type} : Nat → State V → Nat → Option (Nat × State V)
  | 0, _, _ => none
  | fuel + 1, s, iter =>
    if iter = 0 then some (0, s)
    else
      match dlist_iter_remove s iter with
      | none => none
      | some (nxt, s1) =>
        match iter_remove_loop fuel s1 nxt with
        | none => none
        | some (k, s2) => some (k + 1, s2)

/-! ## Lists without ownership callbacks -/

/-- The states reached from `dlist_init` by `dlist_add`, `dlist_append`, `dlist_remove`,
`dlist_clear` and `dlist_reset` alone. -/
inductive Plain {V : Type} : State V → Prop
  | init (s0 : State V) (cb : Option (Cmp V)) (dflt : Cmp V) :
      Plain (dlist_init s0 cb dflt).2
  | add {s s1 : State V} (data r : Option V) :
      Plain s → dlist_add s data = some (r, s1) → Plain s1
  | append {s s1 : State V} (data r : Option V) :
      Plain s → dlist_append s data = some (r, s1) → Plain s1
  | remove {s s1 : State V} (key r : Option V) :
      Plain s → dlist_remove s key = some (r, s1) → Plain s1
  | clear {s s1 : State V} :
      Plain s → dlist_clear s = some s1 → Plain s1
  | reset {s s1 : State V} (r : Int) :
      Plain s → dlist_reset s = some (r, s1) → Plain s1

/-! ## `dlist_foreach` -/

/-- A `dlist_foreach` callback `int func(const void *, void *)`: it is handed a value and
`arg`, here its own state of type `σ`; through `arg` it may reach the list and change it. -/
abbrev Callback (σ V : Type) := Option V → σ → State V → Option (Int × σ × State V)

/-- How one round of the loop body of `dlist_foreach` ends: at the end of the body
(also by `continue`) with `entry` standing `i` elements after the start, or by `return`. -/
inductive Round (σ V : Type) where
  | next (i : Int) (arg : σ) (s : State V)
  | ret (rc : Int) (arg : σ) (s : State V)

/-- The node `entry` points at when it stands `i` elements after `base`, the value of
`&list->head[0]` at the start of the loop.  Every node is an allocation of one element
(`calloc(1, ...)`), so only element 0 can be dereferenced. -/
def entry_node (base : Nat) (i : Int) : Option Nat :=
  if i = 0 then some base else none

/-- The loop test `entry <= &list->head[list->num_entries]`, with `head` and
`num_entries` read anew; the two pointers can be compared when they point into the same
allocation, that is when `head` is still `base`. -/
def foreach_test {V : Type} (s : State V) (base : Nat) (i : Int) : Option Bool :=
  if s.list.head = base then some (decide (i ≤ (s.list.num_entries : Int))) else none

/-- The loop body of `dlist_foreach`, entered with `entry` at element `i`. -/
def foreach_body {σ V : Type} [DecidableEq V] (func : Callback σ V) (base : Nat) (i : Int)
    (arg : σ) (s : State V) : Option (Round σ V) :=
  match entry_node base i with
  | none => none
  | some entry =>
    match s.mem.read entry with
    | none => none
    | some nd =>
      if nd.data = none ∨ nd.prev = 0 then some (.next i arg s)
      else
        let num_entries := s.list.num_entries
        let data := nd.data
        match func nd.data arg s with
        | none => none
        | some (rc, arg1, s1) =>
          if rc < 0 then some (.ret rc arg1 s1)
          else if rc > 0 then some (.ret 0 arg1 s1)
          else
            match s1.mem.read entry with
            | none => none
            | some nd1 =>
              match s1.mem.read nd1.prev with
              | none => none
              | some pnd =>
                if pnd.data ≠ data then some (.next (i - 1) arg1 s1)
                else if num_entries ≠ s1.list.num_entries then some (.ret (-1) arg1 s1)
                else some (.next i arg1 s1)

/-- The `for` loop of `dlist_foreach` from element `i`, for at most `fuel` rounds; after
a round that does not return comes `++entry`. -/
def foreach_loop {σ V : Type} [DecidableEq V] (func : Callback σ V) (base : Nat) :
    Nat → Int → σ → State V → Option (Int × σ × State V)
  | 0, _, _, _ => none
  | fuel + 1, i, arg, s =>
    match foreach_test s base i with
    | none => none
    | some false => some (0, arg, s)
    | some true =>
      match foreach_body func base i arg s with
      | none => none
      | some (.ret rc arg1 s1) => some (rc, arg1, s1)
      | some (.next j arg1 s1) => foreach_loop func base fuel (j + 1) arg1 s1

/-- The C `dlist_foreach`.  A round that calls `func` can step `entry` back, so the
number of rounds is not bounded by the list; the bound `fuel` is given by the caller of
this definition. -/
def dlist_foreach {σ V : Type} [DecidableEq V] (fuel : Nat) (s : State V)
    (func : Callback σ V) (arg : σ) : Option (Int × σ × State V) :=
  foreach_loop func s.list.head fuel 0 arg s

/-- A callback that does not touch the list, records the value it is handed in `arg`
and returns `rc`. -/
def recording_callback {V : Type} (rc : Int) : Callback (List (Option V)) V :=
  fun v seen s => some (rc, seen ++ [v], s)

/-- A callback in the manner of `test_foreach_callback`: `arg` counts the invocations
from 1; on every odd one the entry just handed over is removed with `dlist_remove`; the
callback returns 0. -/
def alternating_remove_callback {V : Type} : Callback Nat V :=
  fun v i s =>
    if i % 2 = 1 then
      match dlist_remove s v with
      | none => none
      | some (_, s1) => some (0, i + 1, s1)
    else some (0, i + 1, s)

/-- A callback that removes the entry of `key`, whatever entry it is handed, counts its
invocations in `arg` and returns 0. -/
def remove_key_callback {V : Type} (key : V) : Callback Nat V :=
  fun _ i s =>
    match dlist_remove s (some key) with
    | none => none
    | some (_, s1) => some (0, i + 1, s1)

/-- The list after `dlist_init` with the string comparator and `add("a")`: the node of
`"a"` in front of the zeroed node of `dlist_init`. -/
def example_added : State String :=
  { list := { num_entries := 1, head := 2, tail := 0, key_compare := dlist_compare_string,
              key_alloc := false, key_free := false },
    mem := [some ⟨0, 0, none⟩, some ⟨0, 1, some "a"⟩],
    released := [] }

/-- The list after `dlist_init` with the string comparator, `add("k1")` and `add("k2")`. -/
def example_two_added : State String :=
  { list := { num_entries := 2, head := 3, tail := 0, key_compare := dlist_compare_string,
              key_alloc := false, key_free := false },
    mem := [some ⟨0, 0, none⟩, some ⟨0, 1, some "k1"⟩, some ⟨0, 2, some "k2"⟩],
    released := [] }

/-! ## `dlist_destroy` -/

/-- The C `dlist_destroy`: `dlist_free_data`, then `free(list->head)` (a no-op on `NULL`),
then `memset(list, 0, sizeof(*list))`.  Every field of the struct is zero afterwards, so
what is left of the state is the node heap and the log of `key_free` calls. -/
def dlist_destroy {V : Type} (s : State V) : Option (Heap V × List (Option V)) :=
  match dlist_free_data s with
  | none => none
  | some s1 =>
    if s1.list.head = 0 then some (s1.mem, s1.released)
    else
      match free s1.mem s1.list.head with
      | none => none
      | some m => some (m, s1.released)

/-! ## The iterators of a full iteration -/

/-- The caller's loop `for (; iter; iter = dlist_iter_next(list, iter))`, from `iter`, for
at most `fuel` rounds: the non-terminal iterators met, in order. -/
def iterators_loop {V : Type} (s : State V) : Nat → Nat → Option (List Nat)
  | 0, _ => none
  | fuel + 1, iter =>
    if iter = 0 then some []
    else
      match dlist_iter_next s iter with
      | none => none
      | some nxt =>
        match iterators_loop s fuel nxt with
        | none => none
        | some rest => some (iter :: rest)

/-- The non-terminal iterators a full iteration yields: `dlist_iter`, then
`dlist_iter_next` up to the terminal iterator. -/
def iterators {V : Type} (s : State V) : Option (List Nat) :=
  match dlist_iter s with
  | none => none
  | some iter => iterators_loop s (s.mem.length + 1) iter

/-! ## Reachable states, `dlist_iter_set_data` included -/

/-- The states a caller can bring a list to with `dlist_init`, `dlist_add`,
`dlist_append`, `dlist_remove`, `dlist_clear`, `dlist_reset`, `dlist_iter_set_data` (on
any pointer on which the call is defined) and `dlist_set_key_alloc_func`. -/
inductive ReachableWithSet {V : Type} : State V → Prop
  | init (s0 : State V) (cb : Option (Cmp V)) (dflt : Cmp V) :
      ReachableWithSet (dlist_init s0 cb dflt).2
  | add {s s1 : State V} (data r : Option V) :
      ReachableWithSet s → dlist_add s data = some (r, s1) → ReachableWithSet s1
  | append {s s1 : State V} (data r : Option V) :
      ReachableWithSet s → dlist_append s data = some (r, s1) → ReachableWithSet s1
  | remove {s s1 : State V} (key r : Option V) :
      ReachableWithSet s → dlist_remove s key = some (r, s1) → ReachableWithSet s1
  | clear {s s1 : State V} :
      ReachableWithSet s → dlist_clear s = some s1 → ReachableWithSet s1
  | reset {s s1 : State V} (r : Int) :
      ReachableWithSet s → dlist_reset s = some (r, s1) → ReachableWithSet s1
  | iter_set_data {s s1 : State V} (iter : Nat) (data : Option V) :
      ReachableWithSet s → dlist_iter_set_data s iter data = some s1 →
      ReachableWithSet s1
  | set_key_alloc_func {s : State V} (key_alloc_cb key_free_cb : Bool) :
      ReachableWithSet s →
      ReachableWithSet (dlist_set_key_alloc_func s key_alloc_cb key_free_cb)

/-! ## Concrete lists with ownership callbacks -/

/-- The list after `dlist_init` with the string comparator, `dlist_set_key_alloc_func`
with both callbacks, and `add("a")`. -/
def example_owned : State String :=
  { list := { num_entries := 1, head := 2, tail := 0, key_compare := dlist_compare_string,
              key_alloc := true, key_free := true },
    mem := [some ⟨0, 0, none⟩, some ⟨0, 1, some "a"⟩],
    released := [] }

/-- The list after `dlist_init` with the string comparator, `dlist_set_key_alloc_func`
with both callbacks, and `append("a")`. -/
def example_owned_appended : State String :=
  { list := { num_entries := 1, head := 2, tail := 2, key_compare := dlist_compare_string,
              key_alloc := true, key_free := true },
    mem := [some ⟨0, 0, none⟩, some ⟨0, 0, some "a"⟩],
    released := [] }

/-- The list after `dlist_init` with the string comparator, `append("a")`, `add("b")` and
`remove("a")`: the node of `"a"` had `prev == NULL` and `next == NULL`, so `head` and
`tail` were set to `NULL`, while `num_entries` went from 2 to 1. -/
def example_headless : State String :=
  { list := { num_entries := 1, head := 0, tail := 0, key_compare := dlist_compare_string,
              key_alloc := false, key_free := false },
    mem := [some ⟨0, 0, none⟩, none, some ⟨0, 2, some "b"⟩],
    released := [] }

/-! # Theorems -/

variable {V : Type}

/-! ## Heap lemmas -/

theorem read_zero (m : Heap V) : m.read 0 = none := by
  simp [Heap.read]

theorem read_bounds {m : Heap V} {p : Nat} {nd : dlist_node V} (h : m.read p = some nd) :
    0 < p ∧ p ≤ m.length := by
  unfold Heap.read at h
  split at h
  · cases h
  · rename_i hp
    refine ⟨Nat.pos_of_ne_zero hp, ?_⟩
    by_contra hlt
    have : m.length ≤ p - 1 := by omega
    simp [List.getD_eq_getElem?_getD, List.getElem?_eq_none this] at h

theorem read_set {m : Heap V} {p : Nat} (hp : 0 < p) (hle : p ≤ m.length)
    (c : Option (dlist_node V)) (q : Nat) :
    Heap.read (m.set (p - 1) c) q = if q = p then c else m.read q := by
  unfold Heap.read
  by_cases hq0 : q = 0
  · subst hq0
    have : ¬ (0 = p) := by omega
    simp [this]
  · by_cases hqp : q = p
    · subst hqp
      have : q - 1 < m.length := by omega
      simp [hq0, List.getD_eq_getElem?_getD, List.getElem?_set, this]
    · have : p - 1 ≠ q - 1 := by omega
      simp [hq0, hqp, List.getD_eq_getElem?_getD, List.getElem?_set_ne this]

theorem read_append_old {m : Heap V} {q : Nat} (l : Heap V) (h : q ≤ m.length) :
    Heap.read (m ++ l) q = m.read q := by
  unfold Heap.read
  by_cases hq0 : q = 0
  · simp [hq0]
  · have : q - 1 < m.length := by omega
    simp [hq0, List.getD_eq_getElem?_getD, List.getElem?_append_left this]

theorem read_append_new (m : Heap V) (c : Option (dlist_node V)) :
    Heap.read (m ++ [c]) (m.length + 1) = c := by
  simp [Heap.read, List.getD_eq_getElem?_getD]

theorem read_append_live {m : Heap V} {q : Nat} {nd : dlist_node V} (l : Heap V)
    (h : m.read q = some nd) : Heap.read (m ++ l) q = some nd := by
  rw [read_append_old l (read_bounds h).2, h]

theorem store_eq {m : Heap V} {p : Nat} {nd : dlist_node V} (h : m.read p = some nd)
    (f : dlist_node V → dlist_node V) :
    m.store p f = some (m.set (p - 1) (some (f nd))) := by
  simp [Heap.store, h]

theorem free_eq {m : Heap V} {p : Nat} {nd : dlist_node V} (h : m.read p = some nd) :
    free m p = some (m.set (p - 1) none) := by
  simp [free, h]

theorem set_last (m : Heap V) (c c' : Option (dlist_node V)) :
    (m ++ [c]).set m.length c' = m ++ [c'] := by
  simp [List.set_append]

theorem store_new (m : Heap V) (nd : dlist_node V) (f : dlist_node V → dlist_node V) :
    Heap.store (m ++ [some nd]) (m.length + 1) f = some (m ++ [some (f nd)]) := by
  simp [Heap.store, read_append_new, set_last]

theorem read_append_at (m : Heap V) (c : Option (dlist_node V)) (n : Nat)
    (hn : n = m.length) : Heap.read (m ++ [c]) (n + 1) = c := by
  subst hn; exact read_append_new m c

theorem store_at (m : Heap V) (nd : dlist_node V) (f : dlist_node V → dlist_node V)
    (n : Nat) (hn : n = m.length) :
    Heap.store (m ++ [some nd]) (n + 1) f = some (m ++ [some (f nd)]) := by
  subst hn; exact store_new m nd f

/-- Closed form of `dlist_add`. -/
theorem dlist_add_eq (s : State V) (data : Option V) :
    dlist_add s data = some (data,
      { list := { s.list with
                  head := s.mem.length + 1,
                  tail := if s.list.head = 0 then s.mem.length + 1 else s.list.tail,
                  num_entries := count_inc s.list.num_entries },
        mem := s.mem ++ [some ⟨0, s.list.head, data⟩],
        released := s.released }) := by
  unfold dlist_add calloc
  simp only [store_new]
  by_cases h : s.list.head = 0
  · simp [h]
  · simp [h, store_new]

theorem lastOr_nil (pred : Nat) : lastOr pred [] = pred := rfl

theorem lastOr_cons (pred a : Nat) (l : List Nat) : lastOr pred (a :: l) = lastOr a l := by
  cases l with
  | nil => rfl
  | cons b t =>
    have h : (b :: t).getLast? = some ((b :: t).getLast (by simp)) := List.getLast?_eq_getLast _ _
    simp only [lastOr, List.getLast?_cons_cons, h]

theorem lastOr_concat (pred a : Nat) (l : List Nat) : lastOr pred (l ++ [a]) = a := by
  simp [lastOr]

theorem Seg_nil (m : Heap V) (pred p q : Nat) : Seg m pred p [] q ↔ p = q := by
  simp [Seg]

theorem Seg_cons (m : Heap V) (pred p a q : Nat) (as : List Nat) :
    Seg m pred p (a :: as) q ↔
      p = a ∧ ∃ nd, m.read a = some nd ∧ (nd.prev = 0 ∨ nd.prev = pred) ∧
        Seg m a nd.next as q := by
  simp only [Seg]
  cases h : m.read a with
  | none => simp
  | some nd => simp

theorem Seg_append (m : Heap V) (l1 l2 : List Nat) (pred p q : Nat) :
    Seg m pred p (l1 ++ l2) q ↔
      ∃ r, Seg m pred p l1 r ∧ Seg m (lastOr pred l1) r l2 q := by
  induction l1 generalizing pred p with
  | nil => simp [Seg_nil, lastOr_nil]
  | cons a as ih =>
    simp only [List.cons_append, Seg_cons, lastOr_cons, ih]
    constructor
    · rintro ⟨hp, nd, hr, hprev, r, h1, h2⟩
      exact ⟨r, ⟨hp, nd, hr, hprev, h1⟩, h2⟩
    · rintro ⟨r, ⟨hp, nd, hr, hprev, h1⟩, h2⟩
      exact ⟨hp, nd, hr, hprev, r, h1, h2⟩

theorem Seg_frame {m m' : Heap V} {l : List Nat} {pred p q : Nat}
    (hfr : ∀ a ∈ l, m'.read a = m.read a) (h : Seg m pred p l q) : Seg m' pred p l q := by
  induction l generalizing pred p with
  | nil => simpa [Seg_nil] using h
  | cons a as ih =>
    rw [Seg_cons] at h ⊢
    obtain ⟨hp, nd, hr, hprev, hrest⟩ := h
    refine ⟨hp, nd, ?_, hprev, ih (fun b hb => hfr b (List.mem_cons_of_mem _ hb)) hrest⟩
    rw [hfr a (List.mem_cons_self _ _), hr]

theorem Seg_live {m : Heap V} {l : List Nat} {pred p q : Nat} (h : Seg m pred p l q) :
    ∀ a ∈ l, ∃ nd, m.read a = some nd := by
  induction l generalizing pred p with
  | nil => simp
  | cons a as ih =>
    rw [Seg_cons] at h
    obtain ⟨_, nd, hr, _, hrest⟩ := h
    intro b hb
    rcases List.mem_cons.mp hb with rfl | hb
    · exact ⟨nd, hr⟩
    · exact ih hrest b hb

theorem Seg_pred {m : Heap V} {l : List Nat} {p q : Nat} (pred : Nat)
    (h : Seg m 0 p l q) : Seg m pred p l q := by
  cases l with
  | nil => simpa [Seg_nil] using h
  | cons a as =>
    rw [Seg_cons] at h ⊢
    obtain ⟨hp, nd, hr, hprev, hrest⟩ := h
    exact ⟨hp, nd, hr, Or.inl (by rcases hprev with h | h <;> exact h), hrest⟩

theorem Seg_chain_loop {m : Heap V} {l : List Nat} {pred p : Nat} (h : Seg m pred p l 0)
    (fuel : Nat) (hf : l.length < fuel) : chain_loop m fuel p = some l := by
  induction l generalizing pred p fuel with
  | nil =>
    rw [Seg_nil] at h
    cases fuel with
    | zero => simp at hf
    | succ f => simp [chain_loop, h]
  | cons a as ih =>
    rw [Seg_cons] at h
    obtain ⟨hp, nd, hr, _, hrest⟩ := h
    cases fuel with
    | zero => simp at hf
    | succ f =>
      have hf' : as.length < f := by simpa using hf
      have ha : a ≠ 0 := by
        intro h0; rw [h0, read_zero] at hr; cases hr
      simp [chain_loop, hp, ha, hr, ih hrest f hf']

theorem chain_loop_live {m : Heap V} : ∀ (fuel p : Nat) (ch : List Nat),
    chain_loop m fuel p = some ch → ∀ a ∈ ch, ∃ nd, m.read a = some nd := by
  intro fuel
  induction fuel with
  | zero => intro p ch h; simp [chain_loop] at h
  | succ f ih =>
    intro p ch h
    unfold chain_loop at h
    split at h
    · cases h; simp
    · cases hr : m.read p with
      | none => simp [hr] at h
      | some nd =>
        cases hc : chain_loop m f nd.next with
        | none => simp [hr, hc] at h
        | some rest =>
          simp [hr, hc] at h
          subst h
          intro a ha
          rcases List.mem_cons.mp ha with rfl | ha
          · exact ⟨nd, hr⟩
          · exact ih _ _ hc a ha

/-- The loop of `dlist_find_entry` on a finite chain is the search over its nodes. -/
theorem find_loop_of_chain {cmp : Cmp V} {m : Heap V} {key : Option V} :
    ∀ (fuel p : Nat) (ch : List Nat), chain_loop m fuel p = some ch →
      find_loop cmp m key fuel p = scan cmp key m ch := by
  intro fuel
  induction fuel with
  | zero => intro p ch h; simp [chain_loop] at h
  | succ f ih =>
    intro p ch h
    unfold chain_loop at h
    unfold find_loop
    split at h
    · cases h; simp [*, scan]
    · rename_i hp
      cases hr : m.read p with
      | none => simp [hr] at h
      | some nd =>
        cases hc : chain_loop m f nd.next with
        | none => simp [hr, hc] at h
        | some rest =>
          simp [hr, hc] at h
          subst h
          simp only [hp, if_false, scan, dataAt, hr]
          cases hk : cmp key nd.data with
          | none => rfl
          | some c =>
            by_cases hm : c = 0
            · simp [hm]
            · simp [hm, ih _ _ hc]

theorem Seg_null {m : Heap V} {pred q : Nat} {l : List Nat} (h : Seg m pred 0 l q) :
    l = [] := by
  cases l with
  | nil => rfl
  | cons a as =>
    rw [Seg_cons] at h
    obtain ⟨hp, nd, hr, _⟩ := h
    rw [← hp, read_zero] at hr
    cases hr

theorem Seg_bound {m : Heap V} {l : List Nat} {pred p q : Nat} (h : Seg m pred p l q) :
    ∀ a ∈ l, 0 < a ∧ a ≤ m.length := by
  intro a ha
  obtain ⟨nd, hr⟩ := Seg_live h a ha
  exact read_bounds hr

theorem Seg_grow {m : Heap V} {l : List Nat} {pred p q : Nat} (ext : Heap V)
    (h : Seg m pred p l q) : Seg (m ++ ext) pred p l q := by
  refine Seg_frame (fun a ha => ?_) h
  exact read_append_old ext (Seg_bound h a ha).2

theorem count_inc_lt (n : Nat) : count_inc n < SIZE_MOD :=
  Nat.mod_lt _ (by unfold SIZE_MOD; positivity)

theorem count_dec_lt {n : Nat} (h : n < SIZE_MOD) : count_dec n < SIZE_MOD := by
  unfold count_dec
  split
  · unfold SIZE_MOD; omega
  · omega

theorem Inv_init (s0 : State V) (cb : Option (Cmp V)) (dflt : Cmp V) :
    Inv (dlist_init s0 cb dflt).2 := by
  refine ⟨[s0.mem.length + 1], ?_, by simp, by simp [dlist_init, calloc], Or.inl rfl, ?_⟩
  · simp only [dlist_init, calloc]
    rw [Seg_cons]
    exact ⟨rfl, ⟨0, 0, none⟩, read_append_new _ _, Or.inl rfl, by simp [Seg_nil]⟩
  · simp [dlist_init, SIZE_MOD]

theorem Inv_add {s : State V} (h : Inv s) (data r : Option V) (s1 : State V)
    (heq : dlist_add s data = some (r, s1)) : Inv s1 := by
  rw [dlist_add_eq] at heq
  obtain ⟨ch, hseg, hnd, hlen, htail, hn⟩ := h
  simp only [Option.some.injEq, Prod.mk.injEq] at heq
  obtain ⟨_, rfl⟩ := heq
  refine ⟨(s.mem.length + 1) :: ch, ?_, ?_, ?_, ?_, count_inc_lt _⟩
  · rw [Seg_cons]
    refine ⟨rfl, ⟨0, s.list.head, data⟩, read_append_new _ _, Or.inl rfl, ?_⟩
    exact Seg_grow _ (Seg_pred _ hseg)
  · refine List.nodup_cons.mpr ⟨?_, hnd⟩
    intro hmem
    have := (Seg_bound hseg _ hmem).2
    omega
  · simpa using hlen
  · by_cases h0 : s.list.head = 0
    · rw [h0] at hseg
      have := Seg_null hseg
      subst this
      simp [h0]
    · simp only [h0, if_false]
      rcases htail with ht | ht
      · exact Or.inl ht
      · right
        rw [List.getLast?_cons, ht]; rfl

/-- Closed form of `dlist_append` on a list whose `tail` is `NULL`. -/
theorem dlist_append_eq_null (s : State V) (data : Option V) (ht : s.list.tail = 0) :
    dlist_append s data = some (data,
      { list := { s.list with
                  head := s.mem.length + 1,
                  tail := s.mem.length + 1,
                  num_entries := count_inc s.list.num_entries },
        mem := s.mem ++ [some ⟨0, 0, data⟩],
        released := s.released }) := by
  unfold dlist_append calloc
  simp [store_new, ht]

/-- Closed form of `dlist_append` on a list whose `tail` is a live node. -/
theorem dlist_append_eq_live (s : State V) (data : Option V) (tnd : dlist_node V)
    (ht : s.mem.read s.list.tail = some tnd) :
    dlist_append s data = some (data,
      { list := { s.list with
                  tail := s.mem.length + 1,
                  num_entries := count_inc s.list.num_entries },
        mem := s.mem.set (s.list.tail - 1) (some { tnd with next := s.mem.length + 1 })
                 ++ [some ⟨s.list.tail, 0, data⟩],
        released := s.released }) := by
  have hb := read_bounds ht
  have ht0 : s.list.tail ≠ 0 := by omega
  have hlt : s.list.tail - 1 < s.mem.length := by omega
  unfold dlist_append calloc
  simp only [store_new, ne_eq, ht0, not_false_eq_true, if_true]
  rw [store_eq (read_append_live _ ht)]
  simp only [List.set_append, hlt, if_true]
  rw [store_at _ _ _ _ (by simp)]

theorem Inv_append {s : State V} (h : Inv s) (data : Option V) :
    ∃ s1, dlist_append s data = some (data, s1) ∧ Inv s1 := by
  obtain ⟨ch, hseg, hnd, hlen, htail, hn⟩ := h
  by_cases ht0 : s.list.tail = 0
  · refine ⟨_, dlist_append_eq_null s data ht0, [s.mem.length + 1], ?_, by simp, by simp,
      Or.inr rfl, count_inc_lt _⟩
    rw [Seg_cons]
    exact ⟨rfl, ⟨0, 0, data⟩, read_append_new _ _, Or.inl rfl, by simp [Seg_nil]⟩
  · rcases htail with ht | ht
    · exact absurd ht ht0
    obtain ⟨ys, rfl⟩ := List.getLast?_eq_some_iff.mp ht
    rw [Seg_append] at hseg
    obtain ⟨r, hpre, hlast⟩ := hseg
    rw [Seg_cons] at hlast
    obtain ⟨rfl, tnd, hrt, hprev, hnil⟩ := hlast
    rw [Seg_nil] at hnil
    have hbt := read_bounds hrt
    have hnd' := List.nodup_append.mp hnd
    refine ⟨_, dlist_append_eq_live s data tnd hrt, ys ++ [s.list.tail, s.mem.length + 1],
      ?_, ?_, ?_, Or.inr ?_, count_inc_lt _⟩
    · rw [Seg_append]
      refine ⟨s.list.tail, ?_, ?_⟩
      · refine Seg_frame (fun a ha => ?_) hpre
        have hab := Seg_bound hpre a ha
        have hne : a ≠ s.list.tail := by
          rintro rfl
          exact hnd'.2.2 ha (List.mem_singleton_self _)
        rw [read_append_old _ (by simpa using hab.2), read_set hbt.1 hbt.2]
        simp [hne]
      · rw [Seg_cons]
        refine ⟨rfl, { tnd with next := s.mem.length + 1 }, ?_, hprev, ?_⟩
        · rw [read_append_old _ (by simpa using hbt.2), read_set hbt.1 hbt.2]
          simp
        · rw [Seg_cons]
          refine ⟨rfl, ⟨s.list.tail, 0, data⟩, ?_, Or.inr rfl, by simp [Seg_nil]⟩
          exact read_append_at _ _ _ (by simp)
    · have hfresh : s.mem.length + 1 ∉ ys ++ [s.list.tail] := by
        intro hmem
        rcases List.mem_append.mp hmem with hm | hm
        · have := (Seg_bound hpre _ hm).2; omega
        · have := List.mem_singleton.mp hm; omega
      have : ys ++ [s.list.tail, s.mem.length + 1]
          = (ys ++ [s.list.tail]) ++ [s.mem.length + 1] := by simp
      rw [this]
      refine List.nodup_append.mpr ⟨hnd, by simp, ?_⟩
      intro a ha hb
      rw [List.mem_singleton.mp hb] at ha
      exact hfresh ha
    · simp at hlen ⊢
      omega
    · have : ys ++ [s.list.tail, s.mem.length + 1]
          = (ys ++ [s.list.tail]) ++ [s.mem.length + 1] := by simp
      rw [this, List.getLast?_concat]

theorem read_upd {m : Heap V} {p : Nat} {nd : dlist_node V} (h : m.read p = some nd)
    (c : Option (dlist_node V)) (q : Nat) :
    Heap.read (m.set (p - 1) c) q = if q = p then c else m.read q :=
  read_set (read_bounds h).1 (read_bounds h).2 c q

/-- Closed form of `dlist_remove_entry` on a node with `prev == NULL`, `next == NULL`. -/
theorem remove_entry_eq_only {s : State V} {e : Nat} {d : dlist_node V}
    (hre : s.mem.read e = some d) (hp : d.prev = 0) (hx : d.next = 0) :
    dlist_remove_entry s e = some
      { list := { s.list with head := 0, tail := 0,
                              num_entries := count_dec s.list.num_entries },
        mem := s.mem.set (e - 1) none,
        released := released_after s d.data } := by
  unfold dlist_remove_entry
  simp [hre, hp, hx, free_eq hre, released_after]

/-- Closed form of `dlist_remove_entry` on a node with `prev == NULL`, `next != NULL`. -/
theorem remove_entry_eq_first {s : State V} {e : Nat} {d xnd : dlist_node V}
    (hre : s.mem.read e = some d) (hp : d.prev = 0) (hx : d.next ≠ 0)
    (hrx : s.mem.read d.next = some xnd) (hne : e ≠ d.next) :
    dlist_remove_entry s e = some
      { list := { s.list with head := d.next,
                              num_entries := count_dec s.list.num_entries },
        mem := (s.mem.set (d.next - 1) (some { xnd with prev := 0 })).set (e - 1) none,
        released := released_after s d.data } := by
  have h1 : Heap.read (s.mem.set (d.next - 1) (some { xnd with prev := 0 })) e = some d := by
    rw [read_upd hrx]; simp [hne, hre]
  unfold dlist_remove_entry
  simp [hre, hp, hx, store_eq hrx, free_eq h1, released_after]

/-- Closed form of `dlist_remove_entry` on a node with `prev != NULL`, `next == NULL`. -/
theorem remove_entry_eq_last {s : State V} {e : Nat} {d pnd : dlist_node V}
    (hre : s.mem.read e = some d) (hp : d.prev ≠ 0) (hx : d.next = 0)
    (hrp : s.mem.read d.prev = some pnd) (hne : e ≠ d.prev) :
    dlist_remove_entry s e = some
      { list := { s.list with tail := d.prev,
                              num_entries := count_dec s.list.num_entries },
        mem := (s.mem.set (d.prev - 1) (some { pnd with next := 0 })).set (e - 1) none,
        released := released_after s d.data } := by
  have h1 : Heap.read (s.mem.set (d.prev - 1) (some { pnd with next := 0 })) e = some d := by
    rw [read_upd hrp]; simp [hne, hre]
  unfold dlist_remove_entry
  simp [hre, hp, hx, store_eq hrp, free_eq h1, released_after]

/-- Closed form of `dlist_remove_entry` on a node with `prev != NULL`, `next != NULL`. -/
theorem remove_entry_eq_mid {s : State V} {e : Nat} {d pnd xnd : dlist_node V}
    (hre : s.mem.read e = some d) (hp : d.prev ≠ 0) (hx : d.next ≠ 0)
    (hrp : s.mem.read d.prev = some pnd) (hrx : s.mem.read d.next = some xnd)
    (hne1 : e ≠ d.prev) (hne2 : e ≠ d.next) (hne3 : d.next ≠ d.prev) :
    dlist_remove_entry s e = some
      { list := { s.list with num_entries := count_dec s.list.num_entries },
        mem := ((s.mem.set (d.prev - 1) (some { pnd with next := d.next })).set
                  (d.next - 1) (some { xnd with prev := d.prev })).set (e - 1) none,
        released := released_after s d.data } := by
  have h1 : Heap.read (s.mem.set (d.prev - 1) (some { pnd with next := d.next })) d.next
      = some xnd := by
    rw [read_upd hrp]; simp [hne3, hrx]
  have h2 : Heap.read ((s.mem.set (d.prev - 1) (some { pnd with next := d.next })).set
      (d.next - 1) (some { xnd with prev := d.prev })) e = some d := by
    rw [read_upd h1, read_upd hrp]; simp [hne1, hne2, hre]
  unfold dlist_remove_entry
  simp [hre, hp, hx, store_eq hrp, store_eq h1, free_eq h2, released_after]

theorem getLast?_append_cons (l : List Nat) (a : Nat) (t : List Nat) :
    (l ++ a :: t).getLast? = (a :: t).getLast? := by
  rw [List.getLast?_append, List.getLast?_eq_getLast (a :: t) (by simp)]
  rfl

/-- What `dlist_remove_entry` does to a well-linked chain `pre ++ e :: post` when asked to
take out its node `e`: the node is freed and the count decremented; the chain that is
left is `pre ++ post` when `e->prev` was set, and only `post` when `e->prev` was `NULL`. -/
theorem remove_entry_chain {s : State V} {pre post : List Nat} {e : Nat}
    (hseg : Seg s.mem 0 s.list.head (pre ++ e :: post) 0)
    (hnd : (pre ++ e :: post).Nodup)
    (htail : s.list.tail = 0 ∨ (pre ++ e :: post).getLast? = some s.list.tail) :
    ∃ d s1, s.mem.read e = some d ∧ dlist_remove_entry s e = some s1 ∧
      s1.list.num_entries = count_dec s.list.num_entries ∧
      s1.list.key_compare = s.list.key_compare ∧
      s1.list.key_alloc = s.list.key_alloc ∧
      s1.list.key_free = s.list.key_free ∧
      s1.released = released_after s d.data ∧
      s1.mem.length = s.mem.length ∧
      Seg s1.mem 0 s1.list.head ((if d.prev = 0 then [] else pre) ++ post) 0 ∧
      (s1.list.tail = 0 ∨
        ((if d.prev = 0 then [] else pre) ++ post).getLast? = some s1.list.tail) ∧
      (∀ a ∈ (if d.prev = 0 then [] else pre) ++ post,
        dataAt s1.mem a = dataAt s.mem a) := by
  rw [Seg_append] at hseg
  obtain ⟨r, hpre, hmid⟩ := hseg
  rw [Seg_cons] at hmid
  obtain ⟨rfl, d, hre, hprev, hpost⟩ := hmid
  have hnd' := List.nodup_append.mp hnd
  have he_pre : r ∉ pre := fun h => hnd'.2.2 h (List.mem_cons_self _ _)
  have hnd_post := List.nodup_cons.mp hnd'.2.1
  have he_post : r ∉ post := hnd_post.1
  refine ⟨d, ?_⟩
  by_cases hp : d.prev = 0
  · simp only [hp, if_true, List.nil_append]
    by_cases hx : d.next = 0
    · -- the only node of what is left of the chain
      rw [hx] at hpost
      have := Seg_null hpost
      subst this
      refine ⟨_, hre, remove_entry_eq_only hre hp hx, rfl, rfl, rfl, rfl, rfl, by simp, ?_,
        Or.inl rfl, by simp⟩
      simp [Seg_nil]
    · -- `e` is taken for the head: the chain restarts at `e->next`
      cases post with
      | nil => rw [Seg_nil] at hpost; exact absurd hpost hx
      | cons x post' =>
        rw [Seg_cons] at hpost
        obtain ⟨hdx, xnd, hrx, _, hrest⟩ := hpost
        have hnex : r ≠ x := fun h => he_post (h ▸ List.mem_cons_self _ _)
        have hx_post : x ∉ post' := (List.nodup_cons.mp hnd_post.2).1
        have hr1 : Heap.read (s.mem.set (x - 1) (some { xnd with prev := 0 })) r
            = some d := by
          rw [read_upd hrx]; simp [hnex, hre]
        have hform := remove_entry_eq_first hre hp hx (hdx ▸ hrx) (hdx ▸ hnex)
        rw [hdx] at hform
        have hframe : ∀ a, a ≠ r → a ≠ x →
            Heap.read ((s.mem.set (x - 1) (some { xnd with prev := 0 })).set (r - 1) none) a
              = s.mem.read a := by
          intro a h1 h2
          rw [read_upd hr1, read_upd hrx]; simp [h1, h2]
        have hxr : Heap.read ((s.mem.set (x - 1) (some { xnd with prev := 0 })).set
            (r - 1) none) x = some { xnd with prev := 0 } := by
          rw [read_upd hr1, read_upd hrx]; simp [Ne.symm hnex]
        refine ⟨_, hre, hform, rfl, rfl, rfl, rfl, rfl, by simp, ?_, ?_, ?_⟩
        · rw [Seg_cons]
          refine ⟨rfl, _, hxr, Or.inl rfl, ?_⟩
          refine Seg_frame (fun a ha => ?_) hrest
          refine hframe a ?_ ?_
          · rintro rfl; exact he_post (List.mem_cons_of_mem _ ha)
          · rintro rfl; exact hx_post ha
        · rcases htail with ht | ht
          · exact Or.inl ht
          · right
            rw [getLast?_append_cons, List.getLast?_cons_cons] at ht
            exact ht
        · intro a ha
          rcases List.mem_cons.mp ha with hax | hmem
          · rw [hax]; simp [dataAt, hxr, hrx]
          · have h1 : a ≠ r := fun h => he_post (List.mem_cons_of_mem _ (h ▸ hmem))
            have h2 : a ≠ x := fun h => hx_post (h ▸ hmem)
            simp [dataAt, hframe a h1 h2]
  · simp only [hp, if_false]
    have hprev' : d.prev = lastOr 0 pre := by
      rcases hprev with h | h
      · exact absurd h hp
      · exact h
    rcases List.eq_nil_or_concat pre with hnil | ⟨pre', pp, hcat⟩
    · rw [hnil, lastOr_nil] at hprev'; exact absurd hprev' hp
    rw [List.concat_eq_append] at hcat
    subst hcat
    rw [lastOr_concat] at hprev'
    rw [Seg_append] at hpre
    obtain ⟨r', hpre', hpp⟩ := hpre
    rw [Seg_cons] at hpp
    obtain ⟨rfl, pnd, hrp, hpprev, hpn⟩ := hpp
    rw [Seg_nil] at hpn
    have hne_p : r ≠ r' := fun h => he_pre (h ▸ by simp)
    have hnd_pre := List.nodup_append.mp hnd'.1
    have hp_pre : r' ∉ pre' := fun h => hnd_pre.2.2 h (List.mem_singleton_self _)
    have hpre_r : ∀ a ∈ pre', a ≠ r := by
      rintro a ha rfl; exact he_pre (List.mem_append_left _ ha)
    have hpre_p : ∀ a ∈ pre', a ≠ r' := by
      rintro a ha rfl; exact hp_pre ha
    by_cases hx : d.next = 0
    · -- `e` is the last node: its predecessor becomes the tail
      rw [hx] at hpost
      have := Seg_null hpost
      subst this
      have hform := remove_entry_eq_last hre hp hx (hprev' ▸ hrp) (hprev' ▸ hne_p)
      rw [hprev'] at hform
      have hr1 : Heap.read (s.mem.set (r' - 1) (some { pnd with next := 0 })) r
          = some d := by
        rw [read_upd hrp]; simp [hne_p, hre]
      have hframe : ∀ a, a ≠ r → a ≠ r' →
          Heap.read ((s.mem.set (r' - 1) (some { pnd with next := 0 })).set (r - 1) none) a
            = s.mem.read a := by
        intro a h1 h2
        rw [read_upd hr1, read_upd hrp]; simp [h1, h2]
      have hpr : Heap.read ((s.mem.set (r' - 1) (some { pnd with next := 0 })).set
          (r - 1) none) r' = some { pnd with next := 0 } := by
        rw [read_upd hr1, read_upd hrp]; simp [Ne.symm hne_p]
      refine ⟨_, hre, hform, rfl, rfl, rfl, rfl, rfl, by simp, ?_, ?_, ?_⟩
      · simp only [List.append_nil]
        rw [Seg_append]
        refine ⟨r', Seg_frame (fun a ha => hframe a (hpre_r a ha) (hpre_p a ha)) hpre', ?_⟩
        rw [Seg_cons]
        exact ⟨rfl, _, hpr, hpprev, by simp [Seg_nil]⟩
      · right; simp
      · intro a ha
        simp only [List.append_nil] at ha
        rcases List.mem_append.mp ha with ha | ha
        · simp [dataAt, hframe a (hpre_r a ha) (hpre_p a ha)]
        · rw [List.mem_singleton.mp ha]
          simp [dataAt, hpr, hrp]
    · -- `e` is inside the chain: its two neighbours are joined
      cases post with
      | nil => rw [Seg_nil] at hpost; exact absurd hpost hx
      | cons x post' =>
        rw [Seg_cons] at hpost
        obtain ⟨hdx, xnd, hrx, _, hrest⟩ := hpost
        have hnex : r ≠ x := fun h => he_post (h ▸ List.mem_cons_self _ _)
        have hx_post : x ∉ post' := (List.nodup_cons.mp hnd_post.2).1
        have hxp : x ≠ r' := by
          rintro rfl
          exact hnd'.2.2 (List.mem_append_right _ (List.mem_singleton_self _))
            (List.mem_cons_of_mem _ (List.mem_cons_self _ _))
        have hpost_r : ∀ a ∈ post', a ≠ r := by
          rintro a ha rfl; exact he_post (List.mem_cons_of_mem _ ha)
        have hpost_x : ∀ a ∈ post', a ≠ x := by
          rintro a ha rfl; exact hx_post ha
        have hpost_p : ∀ a ∈ post', a ≠ r' := by
          rintro a ha rfl
          exact hnd'.2.2 (List.mem_append_right _ (List.mem_singleton_self _))
            (List.mem_cons_of_mem _ (List.mem_cons_of_mem _ ha))
        have hpre_x : ∀ a ∈ pre', a ≠ x := by
          rintro a ha rfl
          exact hnd'.2.2 (List.mem_append_left _ ha)
            (List.mem_cons_of_mem _ (List.mem_cons_self _ _))
        have hform := remove_entry_eq_mid hre hp hx (hprev' ▸ hrp) (hdx ▸ hrx)
          (hprev' ▸ hne_p) (hdx ▸ hnex) (by rw [hdx, hprev']; exact hxp)
        rw [hprev', hdx] at hform
        have hr1 : Heap.read (s.mem.set (r' - 1) (some { pnd with next := x })) x
            = some xnd := by
          rw [read_upd hrp]; simp [hxp, hrx]
        have hr2 : Heap.read ((s.mem.set (r' - 1) (some { pnd with next := x })).set
            (x - 1) (some { xnd with prev := r' })) r = some d := by
          rw [read_upd hr1, read_upd hrp]; simp [hnex, hne_p, hre]
        have hframe : ∀ a, a ≠ r → a ≠ x → a ≠ r' →
            Heap.read (((s.mem.set (r' - 1) (some { pnd with next := x })).set
              (x - 1) (some { xnd with prev := r' })).set (r - 1) none) a
              = s.mem.read a := by
          intro a h1 h2 h3
          rw [read_upd hr2, read_upd hr1, read_upd hrp]; simp [h1, h2, h3]
        have hpr : Heap.read (((s.mem.set (r' - 1) (some { pnd with next := x })).set
              (x - 1) (some { xnd with prev := r' })).set (r - 1) none) r'
              = some { pnd with next := x } := by
          rw [read_upd hr2, read_upd hr1, read_upd hrp]
          simp [Ne.symm hne_p, Ne.symm hxp]
        have hxr : Heap.read (((s.mem.set (r' - 1) (some { pnd with next := x })).set
              (x - 1) (some { xnd with prev := r' })).set (r - 1) none) x
              = some { xnd with prev := r' } := by
          rw [read_upd hr2, read_upd hr1]
          simp [Ne.symm hnex]
        refine ⟨_, hre, hform, rfl, rfl, rfl, rfl, rfl, by simp, ?_, ?_, ?_⟩
        · rw [Seg_append]
          refine ⟨x, ?_, ?_⟩
          · rw [Seg_append]
            refine ⟨r', Seg_frame (fun a ha =>
              hframe a (hpre_r a ha) (hpre_x a ha) (hpre_p a ha)) hpre', ?_⟩
            rw [Seg_cons]
            exact ⟨rfl, _, hpr, hpprev, by simp [Seg_nil]⟩
          · rw [lastOr_concat, Seg_cons]
            refine ⟨rfl, _, hxr, Or.inr rfl, ?_⟩
            exact Seg_frame (fun a ha =>
              hframe a (hpost_r a ha) (hpost_x a ha) (hpost_p a ha)) hrest
        · rcases htail with ht | ht
          · exact Or.inl ht
          · right
            rw [getLast?_append_cons, List.getLast?_cons_cons] at ht
            rw [getLast?_append_cons]
            exact ht
        · intro a ha
          rcases List.mem_append.mp ha with ha | ha
          · rcases List.mem_append.mp ha with ha | ha
            · simp [dataAt, hframe a (hpre_r a ha) (hpre_x a ha) (hpre_p a ha)]
            · rw [List.mem_singleton.mp ha]
              simp [dataAt, hpr, hrp]
          · rcases List.mem_cons.mp ha with hax | hmem
            · rw [hax]; simp [dataAt, hxr, hrx]
            · simp [dataAt, hframe a (hpost_r a hmem) (hpost_x a hmem) (hpost_p a hmem)]

/-! ## Lookup -/

theorem Inv_next_chain {s : State V} {ch : List Nat} (hseg : Seg s.mem 0 s.list.head ch 0)
    (hlen : ch.length ≤ s.mem.length) : next_chain s = some ch :=
  Seg_chain_loop hseg _ (by omega)

theorem find_entry_of_chain {s : State V} {ch : List Nat} (h : next_chain s = some ch)
    (key : Option V) :
    dlist_find_entry s key = scan s.list.key_compare key s.mem ch :=
  find_loop_of_chain _ _ _ h

/-- The search stops at a node of the chain or at `NULL`. -/
theorem scan_mem {cmp : Cmp V} {key : Option V} {m : Heap V} {e : Nat} :
    ∀ (ch : List Nat), scan cmp key m ch = some e → e = 0 ∨ e ∈ ch := by
  intro ch
  induction ch with
  | nil => intro h; simp [scan] at h; exact Or.inl h.symm
  | cons a as ih =>
    intro h
    unfold scan at h
    cases hk : cmp key (dataAt m a) with
    | none => simp [hk] at h
    | some c =>
      simp only [hk] at h
      by_cases hc : c = 0
      · simp only [hc, if_true, Option.some.injEq] at h
        exact Or.inr (h ▸ List.mem_cons_self _ _)
      · simp only [hc, if_false] at h
        rcases ih h with h0 | hm
        · exact Or.inl h0
        · exact Or.inr (List.mem_cons_of_mem _ hm)

/-- The search has a result when every call of the comparator it can make has one. -/
theorem scan_defined {cmp : Cmp V} {key : Option V} {m : Heap V} :
    ∀ (ch : List Nat), (∀ a ∈ ch, ∃ c, cmp key (dataAt m a) = some c) →
      ∃ e, scan cmp key m ch = some e := by
  intro ch
  induction ch with
  | nil => intro _; exact ⟨0, rfl⟩
  | cons a as ih =>
    intro hdef
    obtain ⟨c, hc⟩ := hdef a (List.mem_cons_self _ _)
    unfold scan
    by_cases h0 : c = 0
    · exact ⟨a, by simp [hc, h0]⟩
    · obtain ⟨e, he⟩ := ih (fun b hb => hdef b (List.mem_cons_of_mem _ hb))
      exact ⟨e, by simp [hc, h0, he]⟩

/-- The search over the nodes and the search over their values agree. -/
theorem scan_first_match (cmp : Cmp V) (key : Option V) (m : Heap V) :
    ∀ (ch : List Nat),
      (scan cmp key m ch).map (dataAt m) = first_match cmp key (ch.map (dataAt m)) := by
  intro ch
  induction ch with
  | nil => simp [scan, first_match, dataAt, read_zero]
  | cons a as ih =>
    simp only [scan, first_match, List.map_cons]
    cases hk : cmp key (dataAt m a) with
    | none => rfl
    | some c =>
      by_cases hc : c = 0
      · simp [hc]
      · simp [hc, ih]

/-- Where every call of the comparator has a result, the search is the plain "first
value that compares equal". -/
theorem first_match_of_defined {cmp : Cmp V} {key : Option V} :
    ∀ (vs : List (Option V)), (∀ v ∈ vs, ∃ c, cmp key v = some c) →
      first_match cmp key vs
        = some ((vs.find? (fun v => decide (cmp key v = some 0))).join) := by
  intro vs
  induction vs with
  | nil => intro _; rfl
  | cons v vs ih =>
    intro hdef
    obtain ⟨c, hc⟩ := hdef v (List.mem_cons_self _ _)
    have hrest := ih (fun w hw => hdef w (List.mem_cons_of_mem _ hw))
    unfold first_match
    by_cases h0 : c = 0
    · simp [hc, h0, List.find?_cons]
    · simp [hc, h0, List.find?_cons, hrest]

theorem get_data_of_chain {s : State V} {ch : List Nat} (h : next_chain s = some ch)
    (key : Option V) :
    dlist_get_data s key =
      (scan s.list.key_compare key s.mem ch).map (fun e => (dataAt s.mem e, s)) := by
  unfold dlist_get_data
  rw [find_entry_of_chain h key]
  cases hf : scan s.list.key_compare key s.mem ch with
  | none => rfl
  | some e =>
    rcases scan_mem ch hf with h0 | hmem
    · simp [h0, dataAt, read_zero]
    · obtain ⟨nd, hr⟩ := chain_loop_live _ _ _ h e hmem
      have he : e ≠ 0 := by
        rintro rfl; rw [read_zero] at hr; cases hr
      simp [he, hr, dataAt]

theorem values_eq_some {s : State V} {vs : List (Option V)} (h : values s = some vs) :
    ∃ ch, next_chain s = some ch ∧ vs = ch.map (dataAt s.mem) := by
  unfold values at h
  cases hc : next_chain s with
  | none => simp [hc] at h
  | some ch =>
    simp [hc] at h
    exact ⟨ch, rfl, h.symm⟩

theorem values_of_chain {s : State V} {ch : List Nat} (h : next_chain s = some ch) :
    values s = some (ch.map (dataAt s.mem)) := by
  simp [values, h]

/-- On a finite chain with values `vs`, `dlist_get_data` is the search over `vs`, and it
hands back the state as it was. -/
theorem get_data_of_values {s : State V} {vs : List (Option V)} (h : values s = some vs)
    (key : Option V) :
    dlist_get_data s key =
      (first_match s.list.key_compare key vs).map (fun r => (r, s)) := by
  obtain ⟨ch, hch, rfl⟩ := values_eq_some h
  rw [get_data_of_chain hch key, ← scan_first_match]
  cases scan s.list.key_compare key s.mem ch <;> rfl

/-! ## The fuel of the chain walk is enough for every finite chain -/

theorem chain_loop_cons {m : Heap V} {fuel p a : Nat} {rest : List Nat}
    (h : chain_loop m fuel p = some (a :: rest)) :
    p = a ∧ ∃ f nd, fuel = f + 1 ∧ m.read a = some nd ∧
      chain_loop m f nd.next = some rest := by
  cases fuel with
  | zero => simp [chain_loop] at h
  | succ f =>
    unfold chain_loop at h
    split at h
    · cases h
    · cases hr : m.read p with
      | none => simp [hr] at h
      | some nd =>
        cases hc : chain_loop m f nd.next with
        | none => simp [hr, hc] at h
        | some l =>
          simp only [hr, hc, Option.some.injEq, List.cons.injEq] at h
          obtain ⟨rfl, rfl⟩ := h
          exact ⟨rfl, f, nd, rfl, hr, hc⟩

theorem chain_loop_nil {m : Heap V} {fuel p : Nat} (h : chain_loop m fuel p = some []) :
    p = 0 := by
  cases fuel with
  | zero => simp [chain_loop] at h
  | succ f =>
    unfold chain_loop at h
    split at h
    · assumption
    · cases hr : m.read p with
      | none => simp [hr] at h
      | some nd =>
        cases hc : chain_loop m f nd.next with
        | none => simp [hr, hc] at h
        | some l => simp [hr, hc] at h

/-- Two walks from the same node visit the same chain, whatever their fuel. -/
theorem chain_loop_unique {m : Heap V} : ∀ (c1 c2 : List Nat) (f1 f2 p : Nat),
    chain_loop m f1 p = some c1 → chain_loop m f2 p = some c2 → c1 = c2 := by
  intro c1
  induction c1 with
  | nil =>
    intro c2 f1 f2 p h1 h2
    have hp := chain_loop_nil h1
    subst hp
    cases c2 with
    | nil => rfl
    | cons a rest =>
      obtain ⟨ha, _, nd, _, hr, _⟩ := chain_loop_cons h2
      rw [← ha, read_zero] at hr
      cases hr
  | cons a rest ih =>
    intro c2 f1 f2 p h1 h2
    obtain ⟨ha, g1, nd, _, hr, hc1⟩ := chain_loop_cons h1
    cases c2 with
    | nil =>
      have hp := chain_loop_nil h2
      rw [← ha, hp, read_zero] at hr
      cases hr
    | cons b rest2 =>
      obtain ⟨hb, g2, nd2, _, hr2, hc2⟩ := chain_loop_cons h2
      have hab : a = b := ha.symm.trans hb
      subst hab
      have hnd : nd = nd2 := Option.some.inj (hr.symm.trans hr2)
      subst hnd
      rw [ih rest2 g1 g2 nd.next hc1 hc2]

theorem chain_loop_suffix {m : Heap V} : ∀ (l1 : List Nat) (a : Nat) (l2 : List Nat)
    (fuel p : Nat), chain_loop m fuel p = some (l1 ++ a :: l2) →
      ∃ f, chain_loop m f a = some (a :: l2) := by
  intro l1
  induction l1 with
  | nil =>
    intro a l2 fuel p h
    obtain ⟨hp, _⟩ := chain_loop_cons h
    exact ⟨fuel, hp ▸ h⟩
  | cons b l1 ih =>
    intro a l2 fuel p h
    obtain ⟨_, f, nd, _, _, hc⟩ := chain_loop_cons h
    exact ih a l2 f nd.next hc

/-- A chain that reaches `NULL` visits no node twice. -/
theorem chain_loop_nodup {m : Heap V} : ∀ (ch : List Nat) (fuel p : Nat),
    chain_loop m fuel p = some ch → ch.Nodup := by
  intro ch
  induction ch with
  | nil => intro _ _ _; exact List.nodup_nil
  | cons a rest ih =>
    intro fuel p h
    obtain ⟨_, f, nd, _, hr, hc⟩ := chain_loop_cons h
    refine List.nodup_cons.mpr ⟨?_, ih f nd.next hc⟩
    intro hmem
    obtain ⟨l1, l2, hsplit⟩ := List.append_of_mem hmem
    rw [hsplit] at hc
    obtain ⟨g, hg⟩ := chain_loop_suffix l1 a l2 f nd.next hc
    obtain ⟨_, g', nd', _, hr', hc'⟩ := chain_loop_cons hg
    have hnd : nd = nd' := Option.some.inj (hr.symm.trans hr')
    subst hnd
    have := chain_loop_unique _ _ _ _ _ hc hc'
    have hlen := congrArg List.length this
    simp at hlen
    omega

/-- A chain that reaches `NULL` has at most as many nodes as the heap has cells. -/
theorem chain_loop_length_le {m : Heap V} {ch : List Nat} {fuel p : Nat}
    (h : chain_loop m fuel p = some ch) : ch.length ≤ m.length := by
  have hnd := chain_loop_nodup ch fuel p h
  have hsub : ch.toFinset ⊆ Finset.Icc 1 m.length := by
    intro a ha
    obtain ⟨nd, hr⟩ := chain_loop_live _ _ _ h a (List.mem_toFinset.mp ha)
    have := read_bounds hr
    exact Finset.mem_Icc.mpr ⟨this.1, this.2⟩
  have hcard := Finset.card_le_card hsub
  rw [List.toFinset_card_of_nodup hnd] at hcard
  simpa using hcard

theorem chain_loop_fuel {m : Heap V} : ∀ (ch : List Nat) (fuel fuel' p : Nat),
    chain_loop m fuel p = some ch → ch.length < fuel' →
      chain_loop m fuel' p = some ch := by
  intro ch
  induction ch with
  | nil =>
    intro fuel fuel' p h hlt
    have hp := chain_loop_nil h
    cases fuel' with
    | zero => simp at hlt
    | succ f => simp [chain_loop, hp]
  | cons a rest ih =>
    intro fuel fuel' p h hlt
    obtain ⟨hp, f, nd, _, hr, hc⟩ := chain_loop_cons h
    cases fuel' with
    | zero => simp at hlt
    | succ f' =>
      have ha : a ≠ 0 := by
        rintro rfl; rw [read_zero] at hr; cases hr
      have := ih f f' nd.next hc (by simpa using hlt)
      simp [chain_loop, hp, ha, hr, this]

/-- The walk of `next_chain` is complete: whenever following `next` from `head` reaches
`NULL` through live nodes within some number of steps, `next_chain` returns that chain. -/
theorem next_chain_complete {s : State V} {ch : List Nat} {fuel : Nat}
    (h : chain_loop s.mem fuel s.list.head = some ch) : next_chain s = some ch :=
  chain_loop_fuel ch fuel _ _ h (by have := chain_loop_length_le h; omega)

/-! ## Removal by key -/

/-- When the search of `dlist_remove` has no result, a call of the comparator being
undefined, `dlist_remove` has none: nothing was unlinked, freed or handed to `key_free`. -/
theorem remove_of_find_none {s : State V} {key : V}
    (hfind : dlist_find_entry s (some key) = none) : dlist_remove s (some key) = none := by
  simp [dlist_remove, hfind]

/-- On a well-linked list a `dlist_remove` with a non-`NULL` key whose search has a result
returns, keeps the list well linked, and decrements the count exactly when the search
found a node. -/
theorem Inv_remove {s : State V} (h : Inv s) (key : V) {e : Nat}
    (hfind : dlist_find_entry s (some key) = some e) :
    ∃ r s1, dlist_remove s (some key) = some (r, s1) ∧ Inv s1 ∧
      s1.list.num_entries
        = (if finds s key = true then count_dec s.list.num_entries
           else s.list.num_entries) ∧
      s1.list.key_compare = s.list.key_compare := by
  obtain ⟨ch, hseg, hnd, hlen, htail, hn⟩ := h
  have hch := Inv_next_chain hseg hlen
  have hscan := (find_entry_of_chain hch (some key)).symm.trans hfind
  unfold dlist_remove finds
  simp only [hfind]
  rcases scan_mem ch hscan with h0 | hmem
  · subst h0
    refine ⟨none, s, by simp, ⟨ch, hseg, hnd, hlen, htail, hn⟩, by simp, rfl⟩
  · obtain ⟨nd, hr⟩ := Seg_live hseg e hmem
    have he : e ≠ 0 := by
      rintro rfl; rw [read_zero] at hr; cases hr
    obtain ⟨pre, post, rfl⟩ := List.append_of_mem hmem
    obtain ⟨d, s1, hre, hrem, hcount, hcmp, _, _, _, hlen1, hseg1, htail1, _⟩ :=
      remove_entry_chain hseg hnd htail
    have hsub : ((if d.prev = 0 then [] else pre) ++ post).Sublist (pre ++ e :: post) := by
      refine List.Sublist.append ?_ (List.sublist_cons_self _ _)
      split
      · exact List.nil_sublist _
      · exact List.Sublist.refl _
    refine ⟨d.data, s1, by simp [he, hre, hrem],
      ⟨_, hseg1, hnd.sublist hsub, ?_, htail1, ?_⟩, ?_, hcmp⟩
    · rw [hlen1]
      exact le_trans hsub.length_le hlen
    · rw [hcount]; exact count_dec_lt hn
    · simp [he, hcount]

/-! ## `dlist_clear`, `dlist_reset` and the invariant on reachable states -/

theorem free_data_loop_frame : ∀ (fuel : Nat) (s : State V) (iter : Nat) (s1 : State V),
    free_data_loop fuel s iter = some s1 → s1.list = s.list ∧ s1.mem = s.mem := by
  intro fuel
  induction fuel with
  | zero => intro s iter s1 h; simp [free_data_loop] at h
  | succ f ih =>
    intro s iter s1 h
    unfold free_data_loop at h
    split at h
    · cases h; exact ⟨rfl, rfl⟩
    · cases hd : dlist_iter_get_data s iter with
      | none => simp [hd] at h
      | some d =>
        simp only [hd] at h
        cases hn : dlist_iter_next { s with released := s.released ++ [d] } iter with
        | none => simp [hn] at h
        | some nxt =>
          simp only [hn] at h
          exact ih { s with released := s.released ++ [d] } nxt s1 h

theorem free_data_frame {s s1 : State V} (h : dlist_free_data s = some s1) :
    s1.list = s.list ∧ s1.mem = s.mem := by
  unfold dlist_free_data at h
  split at h
  · cases h; exact ⟨rfl, rfl⟩
  · cases hi : dlist_iter s with
    | none => simp [hi] at h
    | some iter =>
      simp only [hi] at h
      exact free_data_loop_frame _ _ _ _ h

/-- What `dlist_clear` changes: the count becomes zero, and values may be reported to
`key_free`; `head`, `tail` and every node are as before. -/
theorem clear_frame {s s1 : State V} (h : dlist_clear s = some s1) :
    s1.list = { s.list with num_entries := 0 } ∧ s1.mem = s.mem := by
  unfold dlist_clear at h
  cases hf : dlist_free_data s with
  | none => simp [hf] at h
  | some s2 =>
    obtain ⟨hl, hm⟩ := free_data_frame hf
    simp only [hf, dlist_len, memset_nodes, Option.some.injEq] at h
    subst h
    simp [hl, hm]

theorem Inv_clear {s s1 : State V} (h : Inv s) (hc : dlist_clear s = some s1) : Inv s1 := by
  obtain ⟨hl, hm⟩ := clear_frame hc
  obtain ⟨ch, hseg, hnd, hlen, htail, _⟩ := h
  refine ⟨ch, ?_, hnd, ?_, ?_, ?_⟩
  · rw [hm, hl]; exact hseg
  · rw [hm]; exact hlen
  · rw [hl]; exact htail
  · rw [hl]; simp [SIZE_MOD]

theorem Inv_reset {s s1 : State V} {r : Int} (hc : dlist_reset s = some (r, s1)) :
    Inv s1 := by
  unfold dlist_reset at hc
  cases hcl : dlist_clear s with
  | none => simp [hcl] at hc
  | some s2 =>
    simp only [hcl, Option.some.injEq, Prod.mk.injEq] at hc
    rw [← hc.2]
    exact Inv_init _ _ _

theorem Inv_set_key_alloc_func {s : State V} (h : Inv s) (a f : Bool) :
    Inv (dlist_set_key_alloc_func s a f) := by
  obtain ⟨ch, hseg, hnd, hlen, htail, hn⟩ := h
  exact ⟨ch, hseg, hnd, hlen, htail, hn⟩

/-- Every reachable state satisfies the linkage invariant. -/
theorem Reachable.inv {s : State V} (h : Reachable s) : Inv s := by
  induction h with
  | init s0 cb dflt => exact Inv_init s0 cb dflt
  | add data r _ heq ih => exact Inv_add ih data r _ heq
  | append data r _ heq ih =>
    obtain ⟨s2, h2, hinv⟩ := Inv_append ih data
    rw [h2] at heq
    simp only [Option.some.injEq, Prod.mk.injEq] at heq
    rw [← heq.2]; exact hinv
  | @remove s0 _ key r _ heq ih =>
    cases key with
    | none => simp [dlist_remove] at heq
    | some k =>
      cases hf : dlist_find_entry s0 (some k) with
      | none => simp [remove_of_find_none hf] at heq
      | some e =>
        obtain ⟨r2, s2, h2, hinv, _⟩ := Inv_remove ih k hf
        rw [h2] at heq
        simp only [Option.some.injEq, Prod.mk.injEq] at heq
        rw [← heq.2]; exact hinv
  | clear _ heq ih => exact Inv_clear ih heq
  | reset r _ heq _ => exact Inv_reset heq
  | set_key_alloc_func a f _ ih => exact Inv_set_key_alloc_func ih a f

/-! ## The worked example of the specification -/

/-- C1. On a list initialised with the string comparator, `append("a")`, `append("b")`,
`add("c")` all return their argument and leave the values `"c"`, `"a"`, `"b"` on the
next-chain from `head`, in that order; `get("a")` returns `"a"` and changes nothing;
`remove("c")` returns `"c"` and leaves `len == 2`; `get("c")` then returns `NULL`. -/
theorem spec_example_trace :
    ∃ s2 s3 s4 s5 : State String,
      dlist_append (fresh dlist_compare_string) (some "a") = some (some "a", s2) ∧
      dlist_append s2 (some "b") = some (some "b", s3) ∧
      dlist_add s3 (some "c") = some (some "c", s4) ∧
      values s4 = some [some "c", some "a", some "b"] ∧
      dlist_get_data s4 (some "a") = some (some "a", s4) ∧
      dlist_remove s4 (some "c") = some (some "c", s5) ∧
      dlist_len s5 = 2 ∧
      values s5 = some [some "a", some "b"] ∧
      dlist_get_data s5 (some "c") = some (none, s5) :=
  ⟨_, _, _, _, rfl, rfl, rfl, by decide, rfl, rfl, by decide, by decide, rfl⟩

/-! ## Lookup and removal by key: the claims -/

/-- On a list whose next-chain from `head` is finite, with values `vs` in chain order, and
for a key on which every call `key_compare(key, v)` with `v` in `vs` has a result,
`dlist_get_data(list, key)` returns the first value `v` of `vs` that has
`key_compare(key, v) == 0`, returns `NULL` when there is none, and hands back the state
unchanged (no field of the list or of a node is written). -/
theorem get_data_first_match (s : State V) (key : Option V) (vs : List (Option V))
    (h : values s = some vs) (hdef : ∀ v ∈ vs, ∃ c, s.list.key_compare key v = some c) :
    dlist_get_data s key =
      some ((vs.find? (fun v => decide (s.list.key_compare key v = some 0))).join, s) := by
  rw [get_data_of_values h key, first_match_of_defined vs hdef]
  rfl

/-- Example: on the list `"c"`, `"a"`, `"b"` the lookup of `"a"` returns `"a"`. -/
theorem get_data_first_match_example :
    values example_list = some [some "c", some "a", some "b"] ∧
      dlist_get_data example_list (some "a") = some (some "a", example_list) :=
  ⟨by decide,
    get_data_first_match example_list (some "a") [some "c", some "a", some "b"]
      (by decide) (by
        intro v hv
        simp only [List.mem_cons, List.mem_singleton, List.not_mem_nil, or_false] at hv
        rcases hv with rfl | rfl | rfl <;> exact ⟨_, rfl⟩)⟩

/-- C2, the code at the failing input.  Right after `dlist_init` with the default
comparator (a `NULL` callback) the chain from `head` is the zeroed node of `dlist_init`,
whose value is `NULL`.  No stored value equals `"a"`, yet `dlist_get_data("a")` does not
return `NULL`: `dlist_find_entry` hands the node's `NULL` value to
`dlist_compare_string`, that is to `strcmp`, and that call has no defined result.  After
`add("b")` the value `"b"` is found, and a lookup of `"a"` again runs into the zeroed
node, which is still the last node of the chain. -/
theorem lookup_miss_compares_with_null :
    (dlist_init (blank String dlist_compare_string) none dlist_compare_string).2
        = fresh dlist_compare_string ∧
      values (fresh dlist_compare_string) = some [none] ∧
      dlist_compare_string (some "a") none = none ∧
      dlist_get_data (fresh dlist_compare_string) (some "a") = none ∧
      ∃ s1 : State String,
        dlist_add (fresh dlist_compare_string) (some "b") = some (some "b", s1) ∧
        values s1 = some [some "b", none] ∧
        dlist_get_data s1 (some "b") = some (some "b", s1) ∧
        dlist_get_data s1 (some "a") = none :=
  ⟨rfl, by decide, rfl, rfl, _, rfl, by decide, rfl, rfl⟩

theorem find_entry_no_match {s : State V} {vs : List (Option V)} (h : values s = some vs)
    (key : Option V) (hno : ∀ v ∈ vs, ∃ c, s.list.key_compare key v = some c ∧ c ≠ 0) :
    dlist_find_entry s key = some 0 := by
  obtain ⟨ch, hch, rfl⟩ := values_eq_some h
  rw [find_entry_of_chain hch key]
  have hall : ∀ (l : List Nat),
      (∀ v ∈ l.map (dataAt s.mem), ∃ c, s.list.key_compare key v = some c ∧ c ≠ 0) →
        scan s.list.key_compare key s.mem l = some 0 := by
    intro l
    induction l with
    | nil => intro _; rfl
    | cons a as ih =>
      intro hl
      obtain ⟨c, hc, hne⟩ := hl (dataAt s.mem a) (by simp)
      unfold scan
      simp only [hc, hne, if_false]
      exact ih (fun v hv => hl v (by simp at hv ⊢; exact Or.inr hv))
  exact hall ch hno

/-- On a list whose next-chain from `head` is finite and on which every call
`key_compare(key, v)` with a stored value `v` returns a result other than 0,
`dlist_remove(list, key)` returns `NULL` and the whole state is as before: `head`, `tail`,
`num_entries`, every node, and the log of `key_free` calls. -/
theorem remove_not_found (s : State V) (key : V) (vs : List (Option V))
    (h : values s = some vs)
    (hno : ∀ v ∈ vs, ∃ c, s.list.key_compare (some key) v = some c ∧ c ≠ 0) :
    dlist_remove s (some key) = some (none, s) := by
  unfold dlist_remove
  simp [find_entry_no_match h (some key) hno]

/-- Example: removing `"z"` from the list `"c"`, `"a"`, `"b"`. -/
theorem remove_not_found_example :
    values example_list = some [some "c", some "a", some "b"] ∧
      dlist_remove example_list (some "z") = some (none, example_list) :=
  ⟨by decide,
    remove_not_found example_list "z" [some "c", some "a", some "b"] (by decide)
      (by
        intro v hv
        simp only [List.mem_cons, List.mem_singleton, List.not_mem_nil, or_false] at hv
        rcases hv with rfl | rfl | rfl <;> exact ⟨_, rfl, by decide⟩)⟩

/-- C4, the code at the failing input.  After `dlist_init` with the default comparator
and `add("a")` the chain holds `"a"` and the zeroed node of `dlist_init`; no stored value
equals `"z"`.  `dlist_remove("z")` compares `"z"` with `"a"`, moves on to the zeroed node
and hands its `NULL` value to `strcmp`: the search has no defined result, and neither has
`dlist_remove`, where it should return `NULL` and leave the list as it is. -/
theorem remove_miss_compares_with_null :
    dlist_add (fresh dlist_compare_string) (some "a") = some (some "a", example_added) ∧
      values example_added = some [some "a", none] ∧
      dlist_compare_string (some "z") (some "a") = some 25 ∧
      dlist_compare_string (some "z") none = none ∧
      dlist_find_entry example_added (some "z") = none ∧
      dlist_remove example_added (some "z") = none :=
  ⟨rfl, by decide, by decide, rfl, rfl, rfl⟩

/-! ## Insertion at the head -/

/-- The next-chain is not disturbed by more fuel or by a heap in which every node that
was live is still live with the same content. -/
theorem chain_loop_frame {m m' : Heap V}
    (hfr : ∀ a nd, m.read a = some nd → m'.read a = some nd) :
    ∀ (fuel fuel' p : Nat) (ch : List Nat), fuel ≤ fuel' →
      chain_loop m fuel p = some ch → chain_loop m' fuel' p = some ch := by
  intro fuel
  induction fuel with
  | zero => intro fuel' p ch _ h; simp [chain_loop] at h
  | succ f ih =>
    intro fuel' p ch hle h
    cases fuel' with
    | zero => omega
    | succ f' =>
      unfold chain_loop at h ⊢
      split at h
      · rename_i hp; simp [hp, ← h]
      · rename_i hp
        cases hr : m.read p with
        | none => simp [hr] at h
        | some nd =>
          cases hc : chain_loop m f nd.next with
          | none => simp [hr, hc] at h
          | some rest =>
            simp only [hr, hc, Option.some.injEq] at h
            simp [hp, hfr p nd hr, ih f' nd.next rest (by omega) hc, h]

theorem dataAt_frame {m m' : Heap V} {a : Nat} {nd : dlist_node V}
    (h : m.read a = some nd) (h' : m'.read a = some nd) : dataAt m' a = dataAt m a := by
  simp [dataAt, h, h']

/-- The values on the next-chain after `dlist_add`. -/
theorem values_add {s : State V} {vs : List (Option V)} (h : values s = some vs)
    (data : Option V) (l : dlist V) (hl : l.head = s.mem.length + 1)
    (rel : List (Option V)) :
    values { list := l, mem := s.mem ++ [some ⟨0, s.list.head, data⟩], released := rel }
      = some (data :: vs) := by
  obtain ⟨ch, hch, rfl⟩ := values_eq_some h
  have hgrow : ∀ a nd, s.mem.read a = some nd →
      Heap.read (s.mem ++ [some ⟨0, s.list.head, data⟩]) a = some nd :=
    fun a nd hr => read_append_live _ hr
  have hrest := chain_loop_frame hgrow (s.mem.length + 1) (s.mem.length + 1) s.list.head ch
    (le_refl _) hch
  have hchain : next_chain
      { list := l, mem := s.mem ++ [some ⟨0, s.list.head, data⟩], released := rel }
      = some ((s.mem.length + 1) :: ch) := by
    unfold next_chain
    simp only [hl, List.length_append, List.length_singleton]
    unfold chain_loop
    simp [read_append_new, hrest]
  rw [values_of_chain hchain]
  simp only [List.map_cons, Option.some.injEq, List.cons.injEq]
  refine ⟨by simp [dataAt, read_append_new], ?_⟩
  refine List.map_congr_left (fun a ha => ?_)
  obtain ⟨nd, hr⟩ := chain_loop_live _ _ _ hch a ha
  exact dataAt_frame hr (hgrow a nd hr)

/-- C8. For every state of the list (reachable or not), if `key_compare(v, v) == 0` then
`dlist_add(list, v)` followed at once by `dlist_get_data(list, v)` returns `v`: the
search stops at the head node, which is the node just added and not an older node with
an equal key. -/
theorem add_then_get (s : State V) (v : Option V)
    (hv : s.list.key_compare v v = some 0) :
    ∃ s1, dlist_add s v = some (v, s1) ∧
      dlist_find_entry s1 v = some s1.list.head ∧
      s1.list.head = s.mem.length + 1 ∧
      dlist_get_data s1 v = some (v, s1) := by
  refine ⟨_, dlist_add_eq s v, ?_, rfl, ?_⟩
  · simp [dlist_find_entry, find_loop, read_append_new, hv]
  · simp [dlist_get_data, dlist_find_entry, find_loop, read_append_new, hv]

/-- C8, witness: the list `"c"`, `"a"`, `"b"` already holds `"a"`; after adding `"a"`
again the lookup stops at the new node, at the fresh address 5. -/
theorem add_then_get_witness :
    dlist_compare_string (some "a") (some "a") = some 0 ∧
      ∃ s1, dlist_add example_list (some "a") = some (some "a", s1) ∧
        dlist_find_entry s1 (some "a") = some 5 ∧
        dlist_get_data s1 (some "a") = some (some "a", s1) := by
  obtain ⟨s1, h1, h2, h3, h4⟩ := add_then_get example_list (some "a") (by decide)
  exact ⟨by decide, s1, h1, by rw [h2, h3]; rfl, h4⟩

/-! ## Counting insertions and removals -/

theorem size_mod_eq : SIZE_MOD = 18446744073709551616 := by
  unfold SIZE_MOD; norm_num

theorem count_inc_cast (n : Nat) :
    ((count_inc n : Nat) : Int) = ((n : Int) + 1) % 18446744073709551616 := by
  unfold count_inc
  rw [size_mod_eq]
  omega

theorem count_dec_cast {n : Nat} (h : n < SIZE_MOD) :
    ((count_dec n : Nat) : Int) = ((n : Int) - 1) % 18446744073709551616 := by
  unfold count_dec
  rw [size_mod_eq] at h ⊢
  split <;> omega

/-- Along any sequence of editing calls on a well-linked list in which every call
returns, the list stays well linked and the count moves by one up for an insertion and
one down for a removal that found a match, in `size_t` arithmetic. -/
theorem run_edits_count : ∀ (es : List (Edit V)) (s s1 : State V), Inv s →
    run_edits s es = some s1 →
      Inv s1 ∧
      ((dlist_len s1 : Nat) : Int)
        = (((dlist_len s : Nat) : Int) + (insertions es : Int)
            - (matched_removes s es : Int)) % 18446744073709551616 := by
  intro es
  induction es with
  | nil =>
    intro s s1 h hrun
    simp only [run_edits, Option.some.injEq] at hrun
    subst hrun
    refine ⟨h, ?_⟩
    have hn : dlist_len s < 18446744073709551616 := by
      obtain ⟨_, _, _, _, _, hn⟩ := h
      rw [size_mod_eq] at hn
      exact hn
    simp only [insertions, matched_removes]
    omega
  | cons e es ih =>
    intro s s1 h hrun
    cases e with
    | add data =>
      have hadd := dlist_add_eq s data
      have hinv := Inv_add h data _ _ hadd
      simp only [run_edits, apply_edit, hadd] at hrun
      obtain ⟨hinv1, hcount⟩ := ih _ s1 hinv hrun
      refine ⟨hinv1, ?_⟩
      have hlen := count_inc_cast (dlist_len s)
      simp only [dlist_len] at hcount hlen ⊢
      simp only [insertions, matched_removes, apply_edit, hadd]
      push_cast
      omega
    | append data =>
      obtain ⟨s2, happ, hinv⟩ := Inv_append h data
      have hlen2 : dlist_len s2 = count_inc (dlist_len s) := by
        by_cases ht : s.list.tail = 0
        · rw [dlist_append_eq_null s data ht] at happ
          simp only [Option.some.injEq, Prod.mk.injEq, true_and] at happ
          rw [← happ]; rfl
        · obtain ⟨ch, hseg, _, _, htail, _⟩ := h
          rcases htail with ht0 | hlast
          · exact absurd ht0 ht
          · obtain ⟨ys, rfl⟩ := List.getLast?_eq_some_iff.mp hlast
            obtain ⟨tnd, hrt⟩ := Seg_live hseg s.list.tail (by simp)
            rw [dlist_append_eq_live s data tnd hrt] at happ
            simp only [Option.some.injEq, Prod.mk.injEq, true_and] at happ
            rw [← happ]; rfl
      simp only [run_edits, apply_edit, happ] at hrun
      obtain ⟨hinv1, hcount⟩ := ih _ s1 hinv hrun
      refine ⟨hinv1, ?_⟩
      have hlen := count_inc_cast (dlist_len s)
      rw [← hlen2] at hlen
      simp only [insertions, matched_removes, apply_edit, happ]
      push_cast
      omega
    | remove key =>
      cases hfe : dlist_find_entry s (some key) with
      | none => simp [run_edits, apply_edit, remove_of_find_none hfe] at hrun
      | some e =>
        obtain ⟨r, s2, hrem, hinv, hn2, _⟩ := Inv_remove h key hfe
        simp only [run_edits, apply_edit, hrem] at hrun
        obtain ⟨hinv1, hcount⟩ := ih _ s1 hinv hrun
        refine ⟨hinv1, ?_⟩
        have hn : s.list.num_entries < SIZE_MOD := by
          obtain ⟨_, _, _, _, _, hn⟩ := h
          exact hn
        have hdec := count_dec_cast hn
        simp only [insertions, matched_removes, apply_edit, hrem]
        simp only [dlist_len] at hcount ⊢
        cases hf : finds s key with
        | true =>
          simp only [hf, if_true] at hn2 ⊢
          rw [hn2, hdec] at hcount
          push_cast
          omega
        | false =>
          simp only [hf, Bool.false_eq_true, if_false] at hn2 ⊢
          rw [hn2] at hcount
          push_cast
          omega

/-- What the count bookkeeping does guarantee.  After any sequence of `dlist_add`,
`dlist_append` and `dlist_remove` calls on a freshly initialised list in which every call
returned, `dlist_len` equals the number of add and append calls minus the number of
remove calls whose search found a match, as an identity of `size_t` values; it is an
identity of numbers whenever the removals that found a match do not outnumber the
insertions. -/
theorem len_counts_edits (s0 : State V) (cb : Option (Cmp V)) (dflt : Cmp V)
    (es : List (Edit V)) (s1 : State V)
    (hrun : run_edits (dlist_init s0 cb dflt).2 es = some s1) :
    ((dlist_len s1 : Nat) : Int)
        = ((insertions es : Int) - (matched_removes (dlist_init s0 cb dflt).2 es : Int))
            % (SIZE_MOD : Int) ∧
      (matched_removes (dlist_init s0 cb dflt).2 es ≤ insertions es ∧
          insertions es < SIZE_MOD →
        dlist_len s1 = insertions es - matched_removes (dlist_init s0 cb dflt).2 es) := by
  obtain ⟨_, hcount⟩ := run_edits_count es _ s1 (Inv_init s0 cb dflt) hrun
  have h0 : dlist_len (dlist_init s0 cb dflt).2 = 0 := rfl
  rw [h0] at hcount
  refine ⟨?_, ?_⟩
  · rw [size_mod_eq]
    push_cast
    rw [hcount]
    congr 1
    omega
  · rw [size_mod_eq]
    rintro ⟨h1, h2⟩
    omega

/-! ## Round trip: add, then remove -/

theorem count_dec_inc {n : Nat} (h : n < SIZE_MOD) : count_dec (count_inc n) = n := by
  unfold count_dec count_inc
  rw [size_mod_eq] at h ⊢
  split <;> omega

/-- On a well-linked list, `dlist_add(list, v)` followed by `dlist_remove(list, v)` gives
back `v` and a list with the count, the chain of values and the comparator it had. -/
theorem add_remove_roundtrip {s : State V} (h : Inv s) (v : V)
    (hv : s.list.key_compare (some v) (some v) = some 0) :
    ∃ s1 s2 vs, dlist_add s (some v) = some (some v, s1) ∧
      dlist_remove s1 (some v) = some (some v, s2) ∧
      dlist_len s2 = dlist_len s ∧
      s2.list.key_compare = s.list.key_compare ∧
      values s = some vs ∧ values s2 = some vs := by
  obtain ⟨ch, hseg, hnd, hlen, htail, hn⟩ := h
  have hadd := dlist_add_eq s (some v)
  -- the list after the add, with its chain
  have hnew : Heap.read (s.mem ++ [some ⟨0, s.list.head, some v⟩]) (s.mem.length + 1)
      = some ⟨0, s.list.head, some v⟩ := read_append_new _ _
  have hfresh : s.mem.length + 1 ∉ ch := fun hmem => by
    have := (Seg_bound hseg _ hmem).2
    omega
  have hseg1 : Seg (s.mem ++ [some ⟨0, s.list.head, some v⟩]) 0 (s.mem.length + 1)
      ([] ++ (s.mem.length + 1) :: ch) 0 := by
    rw [List.nil_append, Seg_cons]
    exact ⟨rfl, _, hnew, Or.inl rfl, Seg_grow _ (Seg_pred _ hseg)⟩
  have hnd1 : ([] ++ (s.mem.length + 1) :: ch).Nodup := by
    rw [List.nil_append]
    exact List.nodup_cons.mpr ⟨hfresh, hnd⟩
  have htail1 : (if s.list.head = 0 then s.mem.length + 1 else s.list.tail) = 0 ∨
      ([] ++ (s.mem.length + 1) :: ch).getLast?
        = some (if s.list.head = 0 then s.mem.length + 1 else s.list.tail) := by
    by_cases h0 : s.list.head = 0
    · rw [h0] at hseg
      have := Seg_null hseg
      subst this
      simp [h0]
    · simp only [h0, if_false]
      rcases htail with ht | ht
      · exact Or.inl ht
      · right
        rw [List.nil_append, List.getLast?_cons, ht]; rfl
  obtain ⟨d, s2, hre, hrem, hcount, hcmp, _, _, _, hlen2, hseg2, _, hdata⟩ :=
    remove_entry_chain
      (s := { list := { s.list with
                        head := s.mem.length + 1,
                        tail := if s.list.head = 0 then s.mem.length + 1 else s.list.tail,
                        num_entries := count_inc s.list.num_entries },
              mem := s.mem ++ [some ⟨0, s.list.head, some v⟩],
              released := s.released })
      hseg1 hnd1 htail1
  have hd : d = ⟨0, s.list.head, some v⟩ := by
    have := hre.symm.trans hnew
    exact Option.some.inj this
  subst hd
  simp only [if_true, List.nil_append] at hseg2 hdata
  refine ⟨_, s2, ch.map (dataAt s.mem), hadd, ?_, ?_, hcmp, ?_, ?_⟩
  · simp [dlist_remove, dlist_find_entry, find_loop, hnew, hv, hrem]
  · simp only [dlist_len, hcount]
    exact count_dec_inc hn
  · exact values_of_chain (Inv_next_chain hseg hlen)
  · have hlen' : ch.length ≤ s2.mem.length := by
      rw [hlen2]; simp; omega
    rw [values_of_chain (Inv_next_chain hseg2 hlen')]
    congr 1
    refine List.map_congr_left (fun a ha => ?_)
    rw [hdata a ha]
    obtain ⟨nd, hr⟩ := Seg_live hseg a ha
    exact dataAt_frame hr (read_append_live _ hr)

/-- On every list reachable from `dlist_init`, if `key_compare(v, v) == 0` then
`dlist_add(list, v)` followed by `dlist_remove(list, v)` returns `v`, leaves `len` and the
values on the chain as they were before the add, and a following `dlist_get_data(list,
v)` does what `dlist_get_data(list, v)` did before the add: it is the same search over
the same values, with a result or without one. -/
theorem add_then_remove (s : State V) (hr : Reachable s) (v : V)
    (hv : s.list.key_compare (some v) (some v) = some 0) :
    ∃ s1 s2 vs, dlist_add s (some v) = some (some v, s1) ∧
      dlist_remove s1 (some v) = some (some v, s2) ∧
      dlist_len s2 = dlist_len s ∧
      values s = some vs ∧ values s2 = some vs ∧
      dlist_get_data s (some v)
        = (first_match s.list.key_compare (some v) vs).map (fun r => (r, s)) ∧
      dlist_get_data s2 (some v)
        = (first_match s.list.key_compare (some v) vs).map (fun r => (r, s2)) := by
  obtain ⟨s1, s2, vs, h1, h2, h3, hcmp, h4, h5⟩ := add_remove_roundtrip hr.inv v hv
  refine ⟨s1, s2, vs, h1, h2, h3, h4, h5, get_data_of_values h4 _, ?_⟩
  rw [get_data_of_values h5, hcmp]

/-- Example: the list holding `"a"` once is reachable; adding a second `"a"` and removing
`"a"` gives back `"a"`, `len` is 1 again and the lookup of `"a"` still finds the older
`"a"`. -/
theorem add_then_remove_example :
    Reachable example_single ∧
      dlist_compare_string (some "a") (some "a") = some 0 ∧
      ∃ s1 s2, dlist_add example_single (some "a") = some (some "a", s1) ∧
        dlist_remove s1 (some "a") = some (some "a", s2) ∧
        dlist_len s2 = 1 ∧
        dlist_get_data example_single (some "a") = some (some "a", example_single) ∧
        dlist_get_data s2 (some "a") = some (some "a", s2) := by
  have hreach : Reachable example_single :=
    Reachable.append (some "a") (some "a")
      (Reachable.init (blank String dlist_compare_string) (some dlist_compare_string)
        dlist_compare_string) rfl
  obtain ⟨s1, s2, vs, h1, h2, h3, h4, _, h5, h6⟩ :=
    add_then_remove example_single hreach "a" (by decide)
  have hvs : vs = [some "a"] := by
    have : values example_single = some [some "a"] := by decide
    rw [this] at h4
    exact (Option.some.inj h4).symm
  subst hvs
  exact ⟨hreach, by decide, s1, s2, h1, h2, h3, h5, h6⟩

/-- C9, the code at the failing input.  On a freshly initialised list with the default
comparator, `add("a")` followed by `remove("a")` returns `"a"`, `len` is 0 again and the
chain is the zeroed node of `dlist_init`, as before the add.  No stored value equals
`"a"`, yet the following `dlist_get_data("a")` does not report "not found": the search
hands the `NULL` value of the zeroed node to `strcmp`, a call without a defined result.
The same lookup before the add had none either. -/
theorem round_trip_lookup_compares_with_null :
    ∃ s1 s2 : State String,
      dlist_compare_string (some "a") (some "a") = some 0 ∧
      dlist_add (fresh dlist_compare_string) (some "a") = some (some "a", s1) ∧
      dlist_remove s1 (some "a") = some (some "a", s2) ∧
      dlist_len s2 = 0 ∧
      values s2 = some [none] ∧
      dlist_compare_string (some "a") none = none ∧
      dlist_get_data s2 (some "a") = none ∧
      dlist_get_data (fresh dlist_compare_string) (some "a") = none :=
  ⟨_, _, by decide, rfl, rfl, by decide, by decide, rfl, rfl, rfl⟩

/-! ## Where the code leaves the specification -/

/-- C3, the code at the failing input.  After `dlist_init`, `add("k1")`, `add("k2")` the
chain is `"k2"`, `"k1"` and the zeroed node of `dlist_init`.  `dlist_remove("k1")` returns
`"k1"` and `len` drops to 1, but `"k1"` has `prev == NULL`, so it is unlinked as if it
were the head: `head` moves to the node after it and `"k2"` is no longer on the chain.  A
following `dlist_remove("k2")` reports not found. -/
theorem remove_cuts_off_later_adds :
    ∃ s1 s2 s3 : State String,
      dlist_add (fresh compare_pointers) (some "k1") = some (some "k1", s1) ∧
      dlist_add s1 (some "k2") = some (some "k2", s2) ∧
      values s2 = some [some "k2", some "k1", none] ∧
      dlist_remove s2 (some "k1") = some (some "k1", s3) ∧
      dlist_len s3 = 1 ∧
      values s3 = some [none] ∧
      dlist_get_data s3 (some "k2") = some (none, s3) ∧
      dlist_remove s3 (some "k2") = some (none, s3) :=
  ⟨_, _, _, rfl, rfl, by decide, rfl, by decide, by decide, rfl, rfl⟩

/-- C5, the code at the failing input.  After `dlist_init` and `add("a")` the chain holds
`"a"` and `tail` is still `NULL`; `dlist_append("b")` then takes the empty-list branch and
overwrites `head`: the chain is `"b"` alone while `len` is 2. -/
theorem append_after_add_drops_the_list :
    ∃ s1 s2 : State String,
      dlist_add (fresh dlist_compare_string) (some "a") = some (some "a", s1) ∧
      values s1 = some [some "a", none] ∧
      s1.list.tail = 0 ∧
      dlist_append s1 (some "b") = some (some "b", s2) ∧
      values s2 = some [some "b"] ∧
      dlist_len s2 = 2 :=
  ⟨_, _, rfl, by decide, by decide, rfl, by decide, by decide⟩

/-- C7, the code at the failing input.  On a freshly initialised list whose comparator
reads `NULL` as the empty string, `dlist_remove("")` finds the zeroed node of `dlist_init`,
unlinks it and decrements the count: no insertion was made, one removal found a match,
and `dlist_len` is `2 ^ 64 - 1`. -/
theorem remove_on_fresh_list_wraps_len :
    ∃ s1 : State String,
      run_edits (fresh compare_string_nullsafe) [Edit.remove ""] = some s1 ∧
      dlist_remove (fresh compare_string_nullsafe) (some "") = some (none, s1) ∧
      insertions [(Edit.remove "" : Edit String)] = 0 ∧
      matched_removes (fresh compare_string_nullsafe) [Edit.remove ""] = 1 ∧
      dlist_len s1 = 18446744073709551615 :=
  ⟨_, rfl, rfl, by decide, by decide, by decide⟩

/-- C10, the code at the failing input.  Right after `dlist_init`, on any struct and with
any comparator, `head` points to a freshly allocated zeroed node while `tail` is `NULL`
and `num_entries` is 0, and `dlist_is_empty` returns 0 although `dlist_len` is 0. -/
theorem init_leaves_a_node (s0 : State V) (cb : Option (Cmp V)) (dflt : Cmp V) :
    (dlist_init s0 cb dflt).2.list.head = s0.mem.length + 1 ∧
      (dlist_init s0 cb dflt).2.list.head ≠ 0 ∧
      (dlist_init s0 cb dflt).2.list.tail = 0 ∧
      dlist_len (dlist_init s0 cb dflt).2 = 0 ∧
      dlist_is_empty (dlist_init s0 cb dflt).2 = 0 ∧
      (dlist_init s0 cb dflt).2.mem.read (dlist_init s0 cb dflt).2.list.head
        = some ⟨0, 0, none⟩ := by
  refine ⟨rfl, ?_, rfl, rfl, ?_, ?_⟩
  · simp [dlist_init, calloc]
  · simp [dlist_is_empty, dlist_init, calloc]
  · simp [dlist_init, calloc, read_append_new]

/-! ## Linkage after insertions -/

/-- C11, the code at the failing input.  After `dlist_init`, `add("k1")`, `add("k2")` the
next-chain from `head` has three nodes (`"k2"`, `"k1"` and the zeroed node of
`dlist_init`) while `num_entries` is 2; `tail` is `NULL`, so the chain does not end at
`tail` and there is nothing to follow `prev` from; and the node of `"k1"`, which is not
the head, has `prev == NULL` although its predecessor is the node of `"k2"`. -/
theorem adds_leave_prev_and_tail_unset :
    ∃ s1 s2 : State String,
      dlist_add (fresh dlist_compare_string) (some "k1") = some (some "k1", s1) ∧
      dlist_add s1 (some "k2") = some (some "k2", s2) ∧
      next_chain s2 = some [3, 2, 1] ∧
      values s2 = some [some "k2", some "k1", none] ∧
      dlist_len s2 = 2 ∧
      s2.list.head = 3 ∧
      s2.list.tail = 0 ∧
      s2.mem.read 3 = some ⟨0, 2, some "k2"⟩ ∧
      s2.mem.read 2 = some ⟨0, 1, some "k1"⟩ :=
  ⟨_, _, rfl, rfl, by decide, by decide, by decide, by decide, by decide, by decide,
    by decide⟩

/-! ## `dlist_clear` and `dlist_reset`: the claims -/

/-- C12, the code at the failing input.  After `dlist_init` and `add("a")`, `dlist_clear`
zeroes `num_entries` and writes nothing else: `head` still points to the node of `"a"`,
`dlist_is_empty` returns 0 and `dlist_get_data("a")` still returns `"a"`. -/
theorem clear_keeps_the_nodes :
    ∃ s1 s2 : State String,
      dlist_add (fresh dlist_compare_string) (some "a") = some (some "a", s1) ∧
      dlist_clear s1 = some s2 ∧
      dlist_len s2 = 0 ∧
      s2.list.head = 2 ∧
      s2.mem = s1.mem ∧
      dlist_is_empty s2 = 0 ∧
      values s2 = some [some "a", none] ∧
      dlist_get_data s2 (some "a") = some (some "a", s2) :=
  ⟨_, _, rfl, rfl, by decide, by decide, rfl, by decide, by decide, rfl⟩

theorem remove_entry_fields {s s1 : State V} {e : Nat}
    (h : dlist_remove_entry s e = some s1) :
    s1.list.key_compare = s.list.key_compare ∧ s1.list.key_alloc = s.list.key_alloc ∧
      s1.list.key_free = s.list.key_free := by
  unfold dlist_remove_entry at h
  cases hre : s.mem.read e with
  | none => simp [hre] at h
  | some d =>
    simp only [hre] at h
    split at h
    · cases h
    · rename_i l m hlm
      cases hf : free m e with
      | none => simp [hf] at h
      | some m3 =>
        simp only [hf, Option.some.injEq] at h
        subst h
        have hl : l.key_compare = s.list.key_compare ∧ l.key_alloc = s.list.key_alloc ∧
            l.key_free = s.list.key_free := by
          split at hlm
          · split at hlm
            · split at hlm
              · cases hlm
              · split at hlm
                · cases hlm
                · simp only [Option.some.injEq, Prod.mk.injEq] at hlm
                  rw [← hlm.1]; exact ⟨rfl, rfl, rfl⟩
            · split at hlm
              · cases hlm
              · simp only [Option.some.injEq, Prod.mk.injEq] at hlm
                rw [← hlm.1]; exact ⟨rfl, rfl, rfl⟩
          · split at hlm
            · split at hlm
              · cases hlm
              · simp only [Option.some.injEq, Prod.mk.injEq] at hlm
                rw [← hlm.1]; exact ⟨rfl, rfl, rfl⟩
            · simp only [Option.some.injEq, Prod.mk.injEq] at hlm
              rw [← hlm.1]; exact ⟨rfl, rfl, rfl⟩
        exact hl

theorem remove_fields {s s1 : State V} {key r : Option V}
    (h : dlist_remove s key = some (r, s1)) :
    s1.list.key_compare = s.list.key_compare ∧ s1.list.key_alloc = s.list.key_alloc ∧
      s1.list.key_free = s.list.key_free := by
  unfold dlist_remove at h
  cases key with
  | none => simp at h
  | some k =>
    simp only at h
    cases hf : dlist_find_entry s (some k) with
    | none => simp [hf] at h
    | some e =>
      simp only [hf] at h
      split at h
      · simp only [Option.some.injEq, Prod.mk.injEq] at h
        rw [← h.2]; exact ⟨rfl, rfl, rfl⟩
      · cases hr : s.mem.read e with
        | none => simp [hr] at h
        | some nd =>
          cases hre : dlist_remove_entry s e with
          | none => simp [hr, hre] at h
          | some s2 =>
            simp only [hr, hre, Option.some.injEq, Prod.mk.injEq] at h
            rw [← h.2]; exact remove_entry_fields hre

theorem append_fields {s s1 : State V} {data r : Option V}
    (h : dlist_append s data = some (r, s1)) :
    s1.list.key_compare = s.list.key_compare ∧ s1.list.key_alloc = s.list.key_alloc ∧
      s1.list.key_free = s.list.key_free := by
  unfold dlist_append at h
  simp only at h
  split at h
  · cases h
  · split at h
    · cases h
    · rename_i l m hlm
      simp only [Option.some.injEq, Prod.mk.injEq] at h
      rw [← h.2]
      split at hlm
      · split at hlm
        · cases hlm
        · split at hlm
          · cases hlm
          · simp only [Option.some.injEq, Prod.mk.injEq] at hlm
            rw [← hlm.1]; exact ⟨rfl, rfl, rfl⟩
      · simp only [Option.some.injEq, Prod.mk.injEq] at hlm
        rw [← hlm.1]; exact ⟨rfl, rfl, rfl⟩

theorem add_fields {s s1 : State V} {data r : Option V}
    (h : dlist_add s data = some (r, s1)) :
    s1.list.key_compare = s.list.key_compare ∧ s1.list.key_alloc = s.list.key_alloc ∧
      s1.list.key_free = s.list.key_free := by
  rw [dlist_add_eq] at h
  simp only [Option.some.injEq, Prod.mk.injEq] at h
  rw [← h.2]; exact ⟨rfl, rfl, rfl⟩

/-- Closed form of `dlist_clear` on a list without `key_free`. -/
theorem clear_eq_of_no_key_free {s : State V} (hk : s.list.key_free = false) :
    dlist_clear s = some { s with list := { s.list with num_entries := 0 } } := by
  simp [dlist_clear, dlist_free_data, hk, dlist_len, memset_nodes]

/-- Closed form of `dlist_reset` on a list without `key_free`. -/
theorem reset_eq_of_no_key_free {s : State V} (hk : s.list.key_free = false) (dflt : Cmp V) :
    dlist_reset s = some (0, (dlist_init s (some s.list.key_compare) dflt).2) := by
  simp [dlist_reset, clear_eq_of_no_key_free hk, dlist_init]

/-- A list brought about without `dlist_set_key_alloc_func` has no ownership callback. -/
theorem Plain.no_callbacks {s : State V} (h : Plain s) :
    s.list.key_alloc = false ∧ s.list.key_free = false := by
  induction h with
  | init s0 cb dflt => exact ⟨rfl, rfl⟩
  | add data r _ heq ih =>
    obtain ⟨_, h2, h3⟩ := add_fields heq
    exact ⟨h2.trans ih.1, h3.trans ih.2⟩
  | append data r _ heq ih =>
    obtain ⟨_, h2, h3⟩ := append_fields heq
    exact ⟨h2.trans ih.1, h3.trans ih.2⟩
  | remove key r _ heq ih =>
    obtain ⟨_, h2, h3⟩ := remove_fields heq
    exact ⟨h2.trans ih.1, h3.trans ih.2⟩
  | clear _ heq ih =>
    obtain ⟨hl, _⟩ := clear_frame heq
    rw [hl]; exact ih
  | reset r _ heq ih =>
    rw [reset_eq_of_no_key_free ih.2 default] at heq
    simp only [Option.some.injEq, Prod.mk.injEq] at heq
    rw [← heq.2]; exact ⟨rfl, rfl⟩

theorem Plain.reachable {s : State V} (h : Plain s) : Reachable s := by
  induction h with
  | init s0 cb dflt => exact Reachable.init s0 cb dflt
  | add data r _ heq ih => exact Reachable.add data r ih heq
  | append data r _ heq ih => exact Reachable.append data r ih heq
  | remove key r _ heq ih => exact Reachable.remove key r ih heq
  | clear _ heq ih => exact Reachable.clear ih heq
  | reset r _ heq ih => exact Reachable.reset r ih heq

/-- What a list looks like right after `dlist_init`: the only node on the chain holds
`NULL`; a lookup hands that `NULL` to the comparator and returns `NULL` if the call has a
result; an iteration visits nothing. -/
theorem init_observations (s0 : State V) (cb : Option (Cmp V)) (dflt : Cmp V) :
    values (dlist_init s0 cb dflt).2 = some [none] ∧
      (∀ key, dlist_get_data (dlist_init s0 cb dflt).2 key
        = ((dlist_init s0 cb dflt).2.list.key_compare key none).map
            (fun _ => (none, (dlist_init s0 cb dflt).2))) ∧
      dlist_iter (dlist_init s0 cb dflt).2 = some 0 ∧
      visited (dlist_init s0 cb dflt).2 = some [] := by
  have hseg : Seg (dlist_init s0 cb dflt).2.mem 0 (dlist_init s0 cb dflt).2.list.head
      [s0.mem.length + 1] 0 := by
    simp only [dlist_init, calloc]
    rw [Seg_cons]
    exact ⟨rfl, ⟨0, 0, none⟩, read_append_new _ _, Or.inl rfl, by simp [Seg_nil]⟩
  have hch : next_chain (dlist_init s0 cb dflt).2 = some [s0.mem.length + 1] :=
    Inv_next_chain hseg (by simp [dlist_init, calloc])
  have hv : values (dlist_init s0 cb dflt).2 = some [none] := by
    rw [values_of_chain hch]
    simp [dataAt, dlist_init, calloc, read_append_new]
  refine ⟨hv, ?_, rfl, rfl⟩
  intro key
  rw [get_data_of_values hv key]
  simp only [first_match]
  cases hc : (dlist_init s0 cb dflt).2.list.key_compare key none with
  | none => rfl
  | some c => by_cases h0 : c = 0 <;> simp [h0]

/-- On every list reached from `dlist_init` by `dlist_add`, `dlist_append`,
`dlist_remove`, `dlist_clear` and `dlist_reset`, without ownership callbacks, the call
`dlist_reset(list)` returns 0 and leaves exactly the state `dlist_init` produces for the
list's comparator: `len == 0`, the same `key_compare`, both ownership callbacks unset;
the only node on the chain holds `NULL` and an iteration visits nothing.  `dlist_clear`
on such a list returns and leaves `len == 0` too. -/
theorem reset_restores_init (s : State V) (dflt : Cmp V) (hp : Plain s) :
    ∃ s1 s2, dlist_reset s = some (0, s1) ∧
      s1 = (dlist_init s (some s.list.key_compare) dflt).2 ∧
      dlist_len s1 = 0 ∧
      s1.list.key_compare = s.list.key_compare ∧
      s1.list.key_alloc = false ∧ s1.list.key_free = false ∧
      values s1 = some [none] ∧
      dlist_iter s1 = some 0 ∧ visited s1 = some [] ∧
      dlist_clear s = some s2 ∧ dlist_len s2 = 0 := by
  have hk := hp.no_callbacks.2
  obtain ⟨h1, _, h3, h4⟩ := init_observations s (some s.list.key_compare) dflt
  exact ⟨_, _, reset_eq_of_no_key_free hk dflt, rfl, rfl, rfl, rfl, rfl, h1, h3, h4,
    clear_eq_of_no_key_free hk, rfl⟩

/-- C13, the code at the failing inputs.  With `key_free` installed, `append("a")`,
`add("b")`, `remove("a")` on a fresh list leave `head == NULL` and `num_entries == 1`
(the node of `"a"` kept `prev == NULL`, so it was unlinked as the only node).  On that
list `dlist_reset` does not return 0: `dlist_clear` calls `dlist_free_data`, whose
`dlist_iter` passes the test on `num_entries` and calls `dlist_get_entry(list, NULL)`,
which reads through `NULL`.  And on the list that holds `"a"`, without callbacks,
`dlist_reset` returns 0 with `len == 0`, but a following `dlist_get_data("a")` does not
report "not found": it hands the `NULL` value of the new zeroed node to `strcmp`. -/
theorem reset_with_null_head_is_undefined :
    ∃ s1 s2 s3 s4 : State String,
      dlist_append (dlist_set_key_alloc_func (fresh dlist_compare_string) true true)
        (some "a") = some (some "a", s1) ∧
      dlist_add s1 (some "b") = some (some "b", s2) ∧
      dlist_remove s2 (some "a") = some (some "a", s3) ∧
      Reachable s3 ∧
      s3.list.head = 0 ∧ s3.list.num_entries = 1 ∧ s3.list.key_free = true ∧
      dlist_iter s3 = none ∧
      dlist_clear s3 = none ∧
      dlist_reset s3 = none ∧
      dlist_reset example_single = some (0, s4) ∧
      dlist_len s4 = 0 ∧
      dlist_get_data s4 (some "a") = none :=
  ⟨_, _, _, _, rfl, rfl, rfl,
    Reachable.remove (some "a") (some "a")
      (Reachable.add (some "b") (some "b")
        (Reachable.append (some "a") (some "a")
          (Reachable.set_key_alloc_func true true
            (Reachable.init (blank String dlist_compare_string)
              (some dlist_compare_string) dlist_compare_string)) rfl) rfl) rfl,
    rfl, rfl, rfl, rfl, rfl, rfl, rfl, rfl, rfl⟩

/-! ## Iterators: the claims -/

/-- C14, the code at the failing input.  After `dlist_init` and `append("a")` the list
stores one value, `"a"`, in its head node, whose `next` is `NULL`; `dlist_get_entry`
answers `NULL` for such a node, so `dlist_iter` returns the terminal iterator and an
iteration visits no value.  After `append("b")` the iteration visits `"a"` only. -/
theorem iteration_misses_the_last_node :
    ∃ s1 s2 : State String,
      dlist_append (fresh dlist_compare_string) (some "a") = some (some "a", s1) ∧
      values s1 = some [some "a"] ∧
      dlist_len s1 = 1 ∧
      dlist_iter s1 = some 0 ∧
      visited s1 = some [] ∧
      dlist_append s1 (some "b") = some (some "b", s2) ∧
      values s2 = some [some "a", some "b"] ∧
      visited s2 = some [some "a"] :=
  ⟨_, _, rfl, by decide, by decide, by decide, by decide, rfl, by decide, by decide⟩

/-- C15, the code at the failing input.  After `dlist_init`, `add("a")`, `add("b")` the
iterator from `dlist_iter` is at the node of `"b"`; `dlist_iter_remove` on it returns the
iterator of `"a"` and on that one the terminal iterator, and neither call changes
anything: two calls were made, no entry was removed, `dlist_len` is still 2 and both
values are still found. -/
theorem iter_remove_removes_nothing :
    ∃ s1 s2 : State String,
      dlist_add (fresh dlist_compare_string) (some "a") = some (some "a", s1) ∧
      dlist_add s1 (some "b") = some (some "b", s2) ∧
      dlist_iter s2 = some 3 ∧
      dlist_iter_remove s2 3 = some (2, s2) ∧
      dlist_iter_remove s2 2 = some (0, s2) ∧
      iter_remove_loop (s2.mem.length + 1) s2 3 = some (2, s2) ∧
      dlist_len s2 = 2 ∧
      values s2 = some [some "b", some "a", none] ∧
      dlist_get_data s2 (some "b") = some (some "b", s2) :=
  ⟨_, _, rfl, rfl, by decide, rfl, rfl, rfl, by decide, by decide, rfl⟩

/-- C16. For an iterator `it` at a live node and every value `d`, `dlist_iter_set_data(it,
d)` writes the `data` field of that node and nothing else: afterwards
`dlist_iter_get_data(it)` returns `d`; the node keeps its `prev` and `next`; every other
node, the list's `head`, `tail`, `num_entries` and callbacks, and the `key_free` log are
unchanged.  On the terminal iterator `set_data` changes nothing and `get_data` returns
`NULL`. -/
theorem iter_set_data_frame (s : State V) (it : Nat) (d : Option V) (nd : dlist_node V)
    (hlive : s.mem.read it = some nd) :
    (∃ s1, dlist_iter_set_data s it d = some s1 ∧
      dlist_iter_get_data s1 it = some d ∧
      s1.mem.read it = some { nd with data := d } ∧
      (∀ q, q ≠ it → s1.mem.read q = s.mem.read q) ∧
      s1.list = s.list ∧ s1.released = s.released ∧ s1.mem.length = s.mem.length) ∧
    dlist_iter_set_data s 0 d = some s ∧
    dlist_iter_get_data s 0 = some none := by
  have hit : it ≠ 0 := by
    rintro rfl; rw [read_zero] at hlive; cases hlive
  refine ⟨⟨{ s with mem := s.mem.set (it - 1) (some { nd with data := d }) },
    by simp [dlist_iter_set_data, hit, store_eq hlive], ?_, ?_, ?_, rfl, rfl,
    by simp⟩, by simp [dlist_iter_set_data], by simp [dlist_iter_get_data]⟩
  · simp [dlist_iter_get_data, hit, read_upd hlive]
  · simp [read_upd hlive]
  · intro q hq
    simp [read_upd hlive, hq]

/-- C16, witness: on the list `"c"`, `"a"`, `"b"`, the iterator at the node of `"a"`
(address 2) is given the value `"z"`. -/
theorem iter_set_data_frame_witness :
    example_list.mem.read 2 = some ⟨0, 3, some "a"⟩ ∧
      ∃ s1, dlist_iter_set_data example_list 2 (some "z") = some s1 ∧
        dlist_iter_get_data s1 2 = some (some "z") ∧
        values s1 = some [some "c", some "z", some "b"] ∧
        s1.list = example_list.list := by
  obtain ⟨⟨s1, h1, h2, _, _, h5, _⟩, _, _⟩ :=
    iter_set_data_frame example_list 2 (some "z") ⟨0, 3, some "a"⟩ (by decide)
  have hs : s1 = { example_list with
      mem := [some ⟨0, 0, none⟩, some ⟨0, 3, some "z"⟩, some ⟨2, 0, some "b"⟩,
              some ⟨0, 2, some "c"⟩] } := by
    have : dlist_iter_set_data example_list 2 (some "z") = some { example_list with
      mem := [some ⟨0, 0, none⟩, some ⟨0, 3, some "z"⟩, some ⟨2, 0, some "b"⟩,
              some ⟨0, 2, some "c"⟩] } := rfl
    rw [this] at h1
    exact (Option.some.inj h1).symm
  refine ⟨by decide, s1, h1, h2, ?_, h5⟩
  rw [hs]
  decide

/-! ## `dlist_foreach` on a well-linked list -/

/-- On a head node whose `prev` is `NULL` the first round of `dlist_foreach` takes the
`continue`: `func` is not called. -/
theorem foreach_body_skips_head [DecidableEq V] {σ : Type} {s : State V} {nd : dlist_node V}
    (hr : s.mem.read s.list.head = some nd) (hp : nd.prev = 0) (func : Callback σ V)
    (arg : σ) :
    foreach_body func s.list.head 0 arg s = some (Round.next 0 arg s) := by
  simp [foreach_body, entry_node, hr, hp]

/-- On every well-linked list `dlist_foreach` never calls `func`: with a `NULL` head the
first round dereferences `NULL`; otherwise the first round skips the head node, whose
`prev` is `NULL`, and the second round either leaves the loop (`num_entries == 0`) or
dereferences `&list->head[1]`, which lies past the node. -/
theorem foreach_of_inv [DecidableEq V] {σ : Type} {s : State V} (h : Inv s) (fuel : Nat)
    (func : Callback σ V) (arg : σ) :
    dlist_foreach fuel s func arg =
      if s.list.head ≠ 0 ∧ s.list.num_entries = 0 ∧ 2 ≤ fuel then some (0, arg, s)
      else none := by
  obtain ⟨ch, hseg, _, _, _, _⟩ := h
  unfold dlist_foreach
  by_cases h0 : s.list.head = 0
  · cases fuel with
    | zero => simp [foreach_loop, h0]
    | succ f =>
      simp [foreach_loop, foreach_test, foreach_body, entry_node, h0, read_zero]
  · cases ch with
    | nil => rw [Seg_nil] at hseg; exact absurd hseg h0
    | cons a rest =>
      rw [Seg_cons] at hseg
      obtain ⟨ha, nd, hr, hprev, _⟩ := hseg
      rw [← ha] at hr
      have hp : nd.prev = 0 := by rcases hprev with h | h <;> exact h
      have hbody := foreach_body_skips_head hr hp func arg
      have htest0 : foreach_test s s.list.head 0 = some true := by simp [foreach_test]
      have hbody1 : foreach_body func s.list.head 1 arg s = none := by
        simp [foreach_body, entry_node]
      cases fuel with
      | zero => simp [foreach_loop]
      | succ f =>
        cases f with
        | zero =>
          simp only [foreach_loop, htest0, hbody]
          simp
        | succ g =>
          simp only [foreach_loop, htest0, hbody, Int.zero_add]
          by_cases hn : s.list.num_entries = 0
          · have htest1 : foreach_test s s.list.head 1 = some false := by
              simp [foreach_test, hn]
            simp [htest1, hn, h0]
          · have htest1 : foreach_test s s.list.head 1 = some true := by
              have hpos : (1 : Int) ≤ (s.list.num_entries : Int) := by omega
              simp [foreach_test, hpos]
            simp [htest1, hbody1, hn]

theorem example_added_reachable : Reachable example_added :=
  Reachable.add (some "a") (some "a")
    (Reachable.init (blank String dlist_compare_string) (some dlist_compare_string)
      dlist_compare_string) rfl

theorem example_two_added_reachable : Reachable example_two_added :=
  Reachable.add (some "k2") (some "k2")
    (Reachable.add (some "k1") (some "k1")
      (Reachable.init (blank String dlist_compare_string) (some dlist_compare_string)
        dlist_compare_string) rfl) rfl

/-! ## `dlist_foreach`: the claims -/

/-- C17, the code at the failing input.  On the list made by `dlist_init` and `add("a")`,
with a callback that returns 0 and leaves the list alone: the first round looks at the
head node, which holds `"a"`, and skips it because its `prev` is `NULL`, so nothing is
recorded; the loop test lets the second round in, and that round dereferences
`&list->head[1]`, past the node.  Whatever the bound on rounds, `dlist_foreach` does not
return 0 after a call on `"a"`: it has no defined result. -/
theorem foreach_skips_the_head_value (fuel : Nat) :
    dlist_add (fresh dlist_compare_string) (some "a") = some (some "a", example_added) ∧
      values example_added = some [some "a", none] ∧
      foreach_body (recording_callback 0) example_added.list.head 0 [] example_added
        = some (Round.next 0 [] example_added) ∧
      foreach_test example_added example_added.list.head 1 = some true ∧
      foreach_body (recording_callback 0) example_added.list.head 1 [] example_added
        = none ∧
      dlist_foreach fuel example_added (recording_callback 0) [] = none := by
  refine ⟨rfl, by decide, rfl, rfl, rfl, ?_⟩
  rw [foreach_of_inv example_added_reachable.inv]
  simp [example_added]

/-- C18, the code at the failing input.  On the non-empty list made by `dlist_init` and
`add("a")`, a callback that would return -5, and one that would return 1, are never
called: the first round skips the head node, the second dereferences `&list->head[1]`.
`dlist_foreach` returns neither -5 nor 0; it has no defined result. -/
theorem foreach_never_reaches_the_callback (fuel : Nat) :
    foreach_body (recording_callback (-5)) example_added.list.head 0 [] example_added
        = some (Round.next 0 [] example_added) ∧
      foreach_body (recording_callback 1) example_added.list.head 0 [] example_added
        = some (Round.next 0 [] example_added) ∧
      dlist_foreach fuel example_added (recording_callback (-5)) [] = none ∧
      dlist_foreach fuel example_added (recording_callback 1) [] = none := by
  refine ⟨rfl, rfl, ?_, ?_⟩
  · rw [foreach_of_inv example_added_reachable.inv]
    simp [example_added]
  · rw [foreach_of_inv example_added_reachable.inv]
    simp [example_added]

/-- C19, the code at the failing input.  On the list made by `dlist_init`, `add("k1")`,
`add("k2")`, with the callback that removes the entry it is handed on every odd
invocation: the callback is not called in the first round (its counter stays at 1, the
list is as it was), and the second round dereferences `&list->head[1]`.  The traversal is
not completed and no result is returned. -/
theorem foreach_with_removals_does_not_finish (fuel : Nat) :
    dlist_add (fresh dlist_compare_string) (some "k1") = some (some "k1",
        { example_added with mem := [some ⟨0, 0, none⟩, some ⟨0, 1, some "k1"⟩] }) ∧
      dlist_add { example_added with mem := [some ⟨0, 0, none⟩, some ⟨0, 1, some "k1"⟩] }
        (some "k2") = some (some "k2", example_two_added) ∧
      foreach_body alternating_remove_callback example_two_added.list.head 0 1
        example_two_added = some (Round.next 0 1 example_two_added) ∧
      foreach_test example_two_added example_two_added.list.head 1 = some true ∧
      foreach_body alternating_remove_callback example_two_added.list.head 1 1
        example_two_added = none ∧
      dlist_foreach fuel example_two_added alternating_remove_callback 1 = none := by
  refine ⟨rfl, rfl, rfl, rfl, rfl, ?_⟩
  rw [foreach_of_inv example_two_added_reachable.inv]
  simp [example_two_added]

/-- C20, the code at the failing input.  On the list `"k2"`, `"k1"` made by `dlist_init`,
`add("k1")`, `add("k2")`, with a callback that removes `"k1"` whatever it is handed: in
the first round the head node, holding `"k2"`, is skipped because its `prev` is `NULL`,
so the callback is not called; the second round dereferences `&list->head[1]`.
`dlist_foreach` does not return a negative value; it has no defined result, and its
check of `num_entries` is never reached. -/
theorem foreach_fence_is_never_reached (fuel : Nat) :
    values example_two_added = some [some "k2", some "k1", none] ∧
      dlist_len example_two_added = 2 ∧
      foreach_body (remove_key_callback "k1") example_two_added.list.head 0 0
        example_two_added = some (Round.next 0 0 example_two_added) ∧
      foreach_test example_two_added example_two_added.list.head 1 = some true ∧
      foreach_body (remove_key_callback "k1") example_two_added.list.head 1 0
        example_two_added = none ∧
      dlist_foreach fuel example_two_added (remove_key_callback "k1") 0 = none := by
  refine ⟨by decide, by decide, rfl, rfl, rfl, ?_⟩
  rw [foreach_of_inv example_two_added_reachable.inv]
  simp [example_two_added]

/-! ## Ownership: what `dlist_remove` hands to `key_free` -/

/-- A node the search stops at holds a value the comparator found equal to the key. -/
theorem scan_found {cmp : Cmp V} {key : Option V} {m : Heap V} {e : Nat} :
    ∀ (ch : List Nat), scan cmp key m ch = some e → e ≠ 0 →
      cmp key (dataAt m e) = some 0 := by
  intro ch
  induction ch with
  | nil => intro h hne; simp [scan] at h; exact absurd h.symm hne
  | cons a as ih =>
    intro h hne
    unfold scan at h
    cases hk : cmp key (dataAt m a) with
    | none => simp [hk] at h
    | some c =>
      simp only [hk] at h
      by_cases hc : c = 0
      · simp only [hc, if_true, Option.some.injEq] at h
        rw [← h, hk, hc]
      · simp only [hc, if_false] at h
        exact ih h hne

/-- On a well-linked list, what `dlist_remove` with a non-`NULL` key does once its search
has the result `e`.  For `e == NULL` it returns `NULL` and the state is as it was.
Otherwise `e` is a live node whose value `d` the comparator found equal to the key, the
call returns `d`, and the log of `key_free` calls grows by `d` if `key_free` is installed
and stays as it was if not. -/
theorem Inv_remove_released {s : State V} (h : Inv s) (key : V) {e : Nat}
    (hfind : dlist_find_entry s (some key) = some e) :
    (e = 0 → dlist_remove s (some key) = some (none, s)) ∧
    (e ≠ 0 → ∃ nd s1, s.mem.read e = some nd ∧
      s.list.key_compare (some key) nd.data = some 0 ∧
      dlist_remove s (some key) = some (nd.data, s1) ∧
      s1.released = released_after s nd.data) := by
  obtain ⟨ch, hseg, hnd, hlen, htail, hn⟩ := h
  have hch := Inv_next_chain hseg hlen
  have hscan := (find_entry_of_chain hch (some key)).symm.trans hfind
  refine ⟨fun h0 => by simp [dlist_remove, hfind, h0], fun he => ?_⟩
  have hcmp := scan_found ch hscan he
  rcases scan_mem ch hscan with h0 | hmem
  · exact absurd h0 he
  · obtain ⟨pre, post, rfl⟩ := List.append_of_mem hmem
    obtain ⟨d, s1, hre, hrem, _, _, _, _, hrel, _⟩ :=
      remove_entry_chain hseg hnd htail
    refine ⟨d, s1, hre, ?_, by simp [dlist_remove, hfind, he, hre, hrem], hrel⟩
    simpa [dataAt, hre] using hcmp

/-- C21. On every list reachable from `dlist_init` (ownership callbacks installed or
not) and for every non-`NULL` key: if the search of `dlist_remove(list, key)` finds a
match, the call returns the value `d` of the node found, which `key_compare` found equal
to the key, and with `key_free` installed the log of `key_free` calls grows by exactly
one entry, `d`, while with `key_free` unset it does not grow; if the search finds no
match, the call returns `NULL` and the state, the log included, is as it was; if the
search has no result (a call of the comparator being undefined), `dlist_remove` has none
and no value was released; and with `key_free` unset no `dlist_remove` that returns
releases a value. -/
theorem remove_releases_once (s : State V) (hr : Reachable s) (key : V) :
    (finds s key = true →
      ∃ e nd s1, dlist_find_entry s (some key) = some e ∧ e ≠ 0 ∧
        s.mem.read e = some nd ∧
        s.list.key_compare (some key) nd.data = some 0 ∧
        dlist_remove s (some key) = some (nd.data, s1) ∧
        (s.list.key_free = true → s1.released = s.released ++ [nd.data]) ∧
        (s.list.key_free = false → s1.released = s.released)) ∧
    (dlist_find_entry s (some key) = some 0 →
      dlist_remove s (some key) = some (none, s)) ∧
    (dlist_find_entry s (some key) = none → dlist_remove s (some key) = none) ∧
    (s.list.key_free = false →
      ∀ r s1, dlist_remove s (some key) = some (r, s1) → s1.released = s.released) := by
  have hinv := hr.inv
  refine ⟨?_, ?_, fun hf => remove_of_find_none hf, ?_⟩
  · intro hf
    cases hfe : dlist_find_entry s (some key) with
    | none => simp [finds, hfe] at hf
    | some e =>
      have he : e ≠ 0 := by simpa [finds, hfe] using hf
      obtain ⟨nd, s1, h1, h2, h3, h4⟩ := (Inv_remove_released hinv key hfe).2 he
      refine ⟨e, nd, s1, rfl, he, h1, h2, h3, ?_, ?_⟩
      · intro hk; rw [h4]; simp [released_after, hk]
      · intro hk; rw [h4]; simp [released_after, hk]
  · intro hfe
    exact (Inv_remove_released hinv key hfe).1 rfl
  · intro hk r s1 hrem
    cases hfe : dlist_find_entry s (some key) with
    | none => rw [remove_of_find_none hfe] at hrem; cases hrem
    | some e =>
      by_cases he : e = 0
      · rw [(Inv_remove_released hinv key hfe).1 he] at hrem
        simp only [Option.some.injEq, Prod.mk.injEq] at hrem
        rw [← hrem.2]
      · obtain ⟨nd, s2, _, _, h3, h4⟩ := (Inv_remove_released hinv key hfe).2 he
        rw [h3] at hrem
        simp only [Option.some.injEq, Prod.mk.injEq] at hrem
        rw [← hrem.2, h4]
        simp [released_after, hk]

theorem example_owned_reachable : Reachable example_owned :=
  Reachable.add (some "a") (some "a")
    (Reachable.set_key_alloc_func true true
      (Reachable.init (blank String dlist_compare_string) (some dlist_compare_string)
        dlist_compare_string)) rfl

/-- C21, witness: on the list holding `"a"` with both callbacks installed, `remove("a")`
finds a match, returns `"a"`, and the log of `key_free` calls is `"a"` alone. -/
theorem remove_releases_once_witness :
    Reachable example_owned ∧ example_owned.list.key_free = true ∧
      finds example_owned "a" = true ∧
      ∃ s1, dlist_remove example_owned (some "a") = some (some "a", s1) ∧
        s1.released = [some "a"] := by
  obtain ⟨h1, _, _, _⟩ := remove_releases_once example_owned example_owned_reachable "a"
  obtain ⟨e, nd, s1, _, _, _, _, hrem, hk, _⟩ := h1 (by decide)
  have hnd : nd.data = some "a" := by
    have : ∃ t, dlist_remove example_owned (some "a") = some (some "a", t) := ⟨_, rfl⟩
    obtain ⟨t, ht⟩ := this
    rw [ht] at hrem
    simp only [Option.some.injEq, Prod.mk.injEq] at hrem
    exact hrem.1.symm
  rw [hnd] at hrem hk
  exact ⟨example_owned_reachable, rfl, by decide, s1, hrem, by rw [hk rfl]; rfl⟩

/-- C22, the code at the failing inputs.  With both callbacks installed: after
`add("a")`, `dlist_clear` hands `"a"` to `key_free` but leaves its node linked, and a
following `dlist_remove("a")` finds that node and hands `"a"` to `key_free` a second
time; after `append("a")` the node of `"a"` is the last of the chain, which the
iteration inside `dlist_free_data` never yields, so neither `dlist_clear` nor
`dlist_destroy` hands `"a"` to `key_free`. -/
theorem clear_then_remove_releases_twice :
    ∃ s2 s3 t2 : State String, ∃ m : Heap String,
      dlist_add (dlist_set_key_alloc_func (fresh dlist_compare_string) true true)
        (some "a") = some (some "a", example_owned) ∧
      dlist_clear example_owned = some s2 ∧
      s2.released = [some "a"] ∧
      dlist_remove s2 (some "a") = some (some "a", s3) ∧
      s3.released = [some "a", some "a"] ∧
      dlist_append (dlist_set_key_alloc_func (fresh dlist_compare_string) true true)
        (some "a") = some (some "a", example_owned_appended) ∧
      values example_owned_appended = some [some "a"] ∧
      dlist_clear example_owned_appended = some t2 ∧
      t2.released = [] ∧
      dlist_destroy example_owned_appended = some (m, []) :=
  ⟨_, _, _, _, rfl, rfl, by decide, rfl, by decide, rfl, by decide, rfl, by decide, rfl⟩

/-! ## `dlist_iter_remove` is `dlist_iter_next` -/

/-- C23. For every list and every iterator `it`, `dlist_iter_remove(list, it)` returns
the iterator `dlist_iter_next(list, it)` returns (and is undefined exactly when that
call is) and hands back the state as it was: `head`, `tail`, `num_entries`, every node
and the log of `key_free` calls are unchanged, so `dlist_get_data` returns after the call
what it returned before it, for every key.  On the terminal iterator both calls return
the terminal iterator. -/
theorem iter_remove_is_iter_next (s : State V) (it : Nat) :
    dlist_iter_remove s it = (dlist_iter_next s it).map (fun nxt => (nxt, s)) ∧
      (∀ nxt s1, dlist_iter_remove s it = some (nxt, s1) →
        s1 = s ∧ ∀ key, dlist_get_data s1 key = dlist_get_data s key) ∧
      dlist_iter_next s 0 = some 0 ∧
      dlist_iter_remove s 0 = some (0, s) := by
  have hmain : dlist_iter_remove s it
      = (dlist_iter_next s it).map (fun nxt => (nxt, s)) := by
    unfold dlist_iter_remove dlist_iter_next
    by_cases h0 : it = 0
    · simp [h0]
    · simp only [h0, if_false]
      cases hr : s.mem.read it with
      | none => simp
      | some nd =>
        simp only
        cases dlist_get_entry s nd.next <;> rfl
  refine ⟨hmain, ?_, by simp [dlist_iter_next], by simp [dlist_iter_remove]⟩
  intro nxt s1 h
  rw [hmain] at h
  cases hn : dlist_iter_next s it with
  | none => simp [hn] at h
  | some n =>
    simp only [hn, Option.map_some', Option.some.injEq, Prod.mk.injEq] at h
    rw [← h.2]
    exact ⟨rfl, fun _ => rfl⟩

/-- C23, witness: on the list `"c"`, `"a"`, `"b"` the iterator at the head (address 4)
is advanced to the node of `"a"` (address 2) by both calls, and `"c"`, the value that
was under the iterator, is still returned by `dlist_get_data`. -/
theorem iter_remove_is_iter_next_witness :
    dlist_iter_next example_list 4 = some 2 ∧
      dlist_iter_remove example_list 4 = some (2, example_list) ∧
      dlist_iter_get_data example_list 4 = some (some "c") ∧
      dlist_get_data example_list (some "c") = some (some "c", example_list) := by
  obtain ⟨h1, _, _, _⟩ := iter_remove_is_iter_next example_list 4
  exact ⟨rfl, h1, rfl, rfl⟩

/-! ## The linkage invariant with `dlist_iter_set_data` -/

/-- A heap whose nodes have the same links as before carries the same segments. -/
theorem Seg_links {m m' : Heap V} {l : List Nat} {pred p q : Nat}
    (hfr : ∀ a ∈ l, ∀ nd, m.read a = some nd →
      ∃ nd', m'.read a = some nd' ∧ nd'.prev = nd.prev ∧ nd'.next = nd.next)
    (h : Seg m pred p l q) : Seg m' pred p l q := by
  induction l generalizing pred p with
  | nil => simpa [Seg_nil] using h
  | cons a as ih =>
    rw [Seg_cons] at h ⊢
    obtain ⟨hp, nd, hr, hprev, hrest⟩ := h
    obtain ⟨nd', hr', h1, h2⟩ := hfr a (List.mem_cons_self _ _) nd hr
    refine ⟨hp, nd', hr', by rw [h1]; exact hprev, ?_⟩
    rw [h2]
    exact ih (fun b hb => hfr b (List.mem_cons_of_mem _ hb)) hrest

theorem Inv_iter_set_data {s s1 : State V} (h : Inv s) {iter : Nat} {data : Option V}
    (hs : dlist_iter_set_data s iter data = some s1) : Inv s1 := by
  unfold dlist_iter_set_data at hs
  by_cases h0 : iter = 0
  · simp only [h0, if_true, Option.some.injEq] at hs
    rw [← hs]; exact h
  · simp only [h0, if_false] at hs
    cases hr : s.mem.read iter with
    | none => simp [Heap.store, hr] at hs
    | some nd =>
      rw [store_eq hr] at hs
      simp only [Option.some.injEq] at hs
      subst hs
      obtain ⟨ch, hseg, hnd, hlen, htail, hn⟩ := h
      refine ⟨ch, Seg_links ?_ hseg, hnd, by simpa using hlen, htail, hn⟩
      intro a _ na hra
      by_cases ha : a = iter
      · subst ha
        rw [hr] at hra
        cases hra
        exact ⟨{ nd with data := data }, by simp [read_upd hr], rfl, rfl⟩
      · exact ⟨na, by simp [read_upd hr, ha, hra], rfl, rfl⟩

/-- Every state reachable with `dlist_iter_set_data` among the calls satisfies the
linkage invariant. -/
theorem ReachableWithSet.well_linked {s : State V} (h : ReachableWithSet s) : Inv s := by
  induction h with
  | init s0 cb dflt => exact Inv_init s0 cb dflt
  | add data r _ heq ih => exact Inv_add ih data r _ heq
  | append data r _ heq ih =>
    obtain ⟨s2, h2, hinv⟩ := Inv_append ih data
    rw [h2] at heq
    simp only [Option.some.injEq, Prod.mk.injEq] at heq
    rw [← heq.2]; exact hinv
  | @remove s0 _ key r _ heq ih =>
    cases key with
    | none => simp [dlist_remove] at heq
    | some k =>
      cases hf : dlist_find_entry s0 (some k) with
      | none => simp [remove_of_find_none hf] at heq
      | some e =>
        obtain ⟨r2, s2, h2, hinv, _⟩ := Inv_remove ih k hf
        rw [h2] at heq
        simp only [Option.some.injEq, Prod.mk.injEq] at heq
        rw [← heq.2]; exact hinv
  | clear _ heq ih => exact Inv_clear ih heq
  | reset r _ heq _ => exact Inv_reset heq
  | iter_set_data iter data _ heq ih => exact Inv_iter_set_data ih heq
  | set_key_alloc_func a f _ ih => exact Inv_set_key_alloc_func ih a f

theorem Reachable.with_set {s : State V} (h : Reachable s) : ReachableWithSet s := by
  induction h with
  | init s0 cb dflt => exact ReachableWithSet.init s0 cb dflt
  | add data r _ heq ih => exact ReachableWithSet.add data r ih heq
  | append data r _ heq ih => exact ReachableWithSet.append data r ih heq
  | remove key r _ heq ih => exact ReachableWithSet.remove key r ih heq
  | clear _ heq ih => exact ReachableWithSet.clear ih heq
  | reset r _ heq ih => exact ReachableWithSet.reset r ih heq
  | set_key_alloc_func a f _ ih => exact ReachableWithSet.set_key_alloc_func a f ih

/-- In a segment, a node whose `prev` is not `NULL` is either the first node, with `prev`
the node before the segment, or stands right after the node `prev` points to, whose
`next` points back to it. -/
theorem Seg_prev {m : Heap V} {l : List Nat} {pred p q : Nat} (h : Seg m pred p l q) :
    ∀ a ∈ l, ∀ nd, m.read a = some nd → nd.prev ≠ 0 →
      (nd.prev = pred ∧ a = p) ∨
      ∃ pre post pn, l = pre ++ nd.prev :: a :: post ∧ m.read nd.prev = some pn ∧
        pn.next = a := by
  induction l generalizing pred p with
  | nil => simp
  | cons c cs ih =>
    rw [Seg_cons] at h
    obtain ⟨hp, nc, hrc, hprev, hrest⟩ := h
    intro a ha nd hra hne
    rcases List.mem_cons.mp ha with hac | hacs
    · left
      rw [hac, hrc] at hra
      cases hra
      rcases hprev with h0 | hpd
      · exact absurd h0 hne
      · exact ⟨hpd, by rw [hac, hp]⟩
    · right
      rcases ih hrest a hacs nd hra hne with ⟨h1, h2⟩ | ⟨pre, post, pn, h1, h2, h3⟩
      · cases cs with
        | nil => simp at hacs
        | cons d ds =>
          rw [Seg_cons] at hrest
          refine ⟨[], ds, nc, ?_, ?_, h2.symm⟩
          · rw [h1, h2, hrest.1]; rfl
          · rw [h1]; exact hrc
      · exact ⟨c :: pre, post, pn, by rw [h1]; rfl, h2, h3⟩

/-- C24. In every state reachable from `dlist_init` by `dlist_add`, `dlist_append`,
`dlist_remove`, `dlist_clear`, `dlist_reset`, `dlist_iter_set_data` and
`dlist_set_key_alloc_func` (new nodes at fresh addresses): the next-chain from `head` is
a finite list `ch` of distinct nodes; the head node's `prev` is `NULL`; a non-`NULL`
`tail` is the last node of `ch`; every node of `ch` is live, and if its `prev` is not
`NULL` then `prev` is the node right before it in `ch` and that node's `next` points
back to it.  Therefore the loop of `dlist_find_entry` ends: whatever bound above the
length of `ch` is put on its rounds, it is the search over the nodes of `ch`, one call
of the comparator per node at most; `dlist_find_entry` returns whenever the comparator
calls it makes on the values of `ch` return; and `dlist_get_data` and `dlist_remove`
(with a non-`NULL` key) return whenever `dlist_find_entry` does. -/
theorem chain_stays_well_linked (s : State V) (hr : ReachableWithSet s) :
    ∃ ch, next_chain s = some ch ∧ ch.Nodup ∧
      (∀ nd, s.mem.read s.list.head = some nd → nd.prev = 0) ∧
      (s.list.tail ≠ 0 → ch.getLast? = some s.list.tail) ∧
      (∀ a ∈ ch, ∃ nd, s.mem.read a = some nd ∧
        (nd.prev ≠ 0 → ∃ pre post pn, ch = pre ++ nd.prev :: a :: post ∧
          s.mem.read nd.prev = some pn ∧ pn.next = a)) ∧
      (∀ key fuel, ch.length < fuel →
        find_loop s.list.key_compare s.mem key fuel s.list.head
          = scan s.list.key_compare key s.mem ch) ∧
      (∀ key, dlist_find_entry s key = scan s.list.key_compare key s.mem ch) ∧
      (∀ key, (∀ a ∈ ch, ∃ c, s.list.key_compare key (dataAt s.mem a) = some c) →
        ∃ e, dlist_find_entry s key = some e) ∧
      (∀ key e, dlist_find_entry s key = some e →
        ∃ r, dlist_get_data s key = some (r, s)) ∧
      (∀ (key : V) e, dlist_find_entry s (some key) = some e →
        ∃ r s1, dlist_remove s (some key) = some (r, s1)) := by
  have hinv := hr.well_linked
  obtain ⟨ch, hseg, hnd, hlen, htail, hn⟩ := hinv
  have hch := Inv_next_chain hseg hlen
  refine ⟨ch, hch, hnd, ?_, ?_, ?_,
    fun key fuel hf => find_loop_of_chain _ _ _ (Seg_chain_loop hseg fuel hf),
    fun key => find_entry_of_chain hch key, ?_, ?_, ?_⟩
  · intro nd hrd
    cases ch with
    | nil =>
      rw [Seg_nil] at hseg
      rw [hseg, read_zero] at hrd
      cases hrd
    | cons a as =>
      rw [Seg_cons] at hseg
      obtain ⟨hp, na, hra, hprev, _⟩ := hseg
      rw [hp, hra] at hrd
      cases hrd
      rcases hprev with h | h <;> exact h
  · intro ht
    rcases htail with h | h
    · exact absurd h ht
    · exact h
  · intro a ha
    obtain ⟨nd, hra⟩ := Seg_live hseg a ha
    refine ⟨nd, hra, fun hne => ?_⟩
    rcases Seg_prev hseg a ha nd hra hne with ⟨h1, _⟩ | h
    · exact absurd h1 hne
    · exact h
  · intro key hdef
    rw [find_entry_of_chain hch key]
    exact scan_defined ch hdef
  · intro key e hfe
    rw [get_data_of_chain hch key, ← find_entry_of_chain hch key, hfe]
    exact ⟨_, rfl⟩
  · intro key e hfe
    obtain ⟨r, s1, h1, _⟩ := Inv_remove ⟨ch, hseg, hnd, hlen, htail, hn⟩ key hfe
    exact ⟨r, s1, h1⟩

theorem example_list_reachable : Reachable example_list :=
  Reachable.add (some "c") (some "c")
    (Reachable.append (some "b") (some "b")
      (Reachable.append (some "a") (some "a")
        (Reachable.init (blank String dlist_compare_string) (some dlist_compare_string)
          dlist_compare_string) rfl) rfl) rfl

/-- C24, witness: the list `"c"`, `"a"`, `"b"` after `dlist_iter_set_data` wrote `"z"`
into the node of `"a"`. -/
theorem chain_stays_well_linked_witness :
    ∃ s1, dlist_iter_set_data example_list 2 (some "z") = some s1 ∧
      ReachableWithSet s1 ∧
      ∃ ch, next_chain s1 = some ch ∧ ch.Nodup ∧
        (∀ nd, s1.mem.read s1.list.head = some nd → nd.prev = 0) ∧
        (s1.list.tail ≠ 0 → ch.getLast? = some s1.list.tail) ∧
        (∀ a ∈ ch, ∃ nd, s1.mem.read a = some nd ∧
          (nd.prev ≠ 0 → ∃ pre post pn, ch = pre ++ nd.prev :: a :: post ∧
            s1.mem.read nd.prev = some pn ∧ pn.next = a)) ∧
        (∀ key fuel, ch.length < fuel →
          find_loop s1.list.key_compare s1.mem key fuel s1.list.head
            = scan s1.list.key_compare key s1.mem ch) ∧
        (∀ key, dlist_find_entry s1 key = scan s1.list.key_compare key s1.mem ch) ∧
        (∀ key, (∀ a ∈ ch, ∃ c, s1.list.key_compare key (dataAt s1.mem a) = some c) →
          ∃ e, dlist_find_entry s1 key = some e) ∧
        (∀ key e, dlist_find_entry s1 key = some e →
          ∃ r, dlist_get_data s1 key = some (r, s1)) ∧
        (∀ (key : String) e, dlist_find_entry s1 (some key) = some e →
          ∃ r s2, dlist_remove s1 (some key) = some (r, s2)) :=
  ⟨_, rfl, ReachableWithSet.iter_set_data 2 (some "z") example_list_reachable.with_set rfl,
    chain_stays_well_linked _
      (ReachableWithSet.iter_set_data 2 (some "z") example_list_reachable.with_set rfl)⟩

/-! ## Iteration: the nodes of the chain but the last -/

/-- On the first node of a chain `dlist_get_entry` returns the node, unless it is the
last one, whose `next` is `NULL`: then it returns `NULL`. -/
theorem get_entry_of_chain {s : State V} {fuel p a : Nat} {rest : List Nat}
    (h : chain_loop s.mem fuel p = some (a :: rest)) :
    dlist_get_entry s p = some (if rest = [] then 0 else a) := by
  obtain ⟨hp, f, nd, _, hr, hrest⟩ := chain_loop_cons h
  unfold dlist_get_entry
  rw [hp, hr]
  cases rest with
  | nil =>
    have hx := chain_loop_nil hrest
    simp [hx]
  | cons b bs =>
    obtain ⟨hb, _, nb, _, hrb, _⟩ := chain_loop_cons hrest
    have hne : nd.next ≠ 0 := by
      intro h0
      rw [← hb, h0, read_zero] at hrb
      cases hrb
    simp [hne]

/-- From a node of a chain that is not the last, `dlist_iter_next` steps through the
nodes of the chain and stops before the last one. -/
theorem iterators_loop_of_chain {s : State V} : ∀ (rest : List Nat) (a fuel cf p : Nat),
    chain_loop s.mem cf p = some (a :: rest) → rest ≠ [] → rest.length < fuel →
      iterators_loop s fuel a = some ((a :: rest).dropLast) := by
  intro rest
  induction rest with
  | nil => intro a fuel cf p _ hne _; exact absurd rfl hne
  | cons b bs ih =>
    intro a fuel cf p h _ hlt
    obtain ⟨_, f, nd, _, hr, hrest⟩ := chain_loop_cons h
    have ha : a ≠ 0 := by
      rintro rfl; rw [read_zero] at hr; cases hr
    have hnext : dlist_iter_next s a = some (if bs = [] then 0 else b) := by
      unfold dlist_iter_next
      simp only [ha, if_false, hr]
      exact get_entry_of_chain hrest
    cases fuel with
    | zero => simp at hlt
    | succ fuel' =>
      unfold iterators_loop
      simp only [ha, if_false, hnext]
      by_cases hbs : bs = []
      · subst hbs
        cases fuel' with
        | zero => simp at hlt
        | succ f2 => simp [iterators_loop]
      · have hlt' : bs.length < fuel' := by simpa using hlt
        simp only [hbs, if_false]
        rw [ih b fuel' f nd.next hrest hbs hlt']
        cases bs with
        | nil => exact absurd rfl hbs
        | cons c cs => simp

/-- The values a caller reads along an iteration are the `data` fields of the iterators
it is given. -/
theorem visit_loop_of_iterators {s : State V} : ∀ (fuel it : Nat) (l : List Nat),
    iterators_loop s fuel it = some l →
      visit_loop s fuel it = some (l.map (dataAt s.mem)) := by
  intro fuel
  induction fuel with
  | zero => intro it l h; simp [iterators_loop] at h
  | succ f ih =>
    intro it l h
    unfold iterators_loop at h
    unfold visit_loop
    by_cases h0 : it = 0
    · simp only [h0, if_true, Option.some.injEq] at h ⊢
      rw [← h]; rfl
    · simp only [h0, if_false] at h ⊢
      cases hn : dlist_iter_next s it with
      | none => simp [hn] at h
      | some nxt =>
        simp only [hn] at h
        cases hl : iterators_loop s f nxt with
        | none => simp [hl] at h
        | some rest =>
          simp only [hl, Option.some.injEq] at h
          have hread : ∃ nd, s.mem.read it = some nd := by
            unfold dlist_iter_next at hn
            simp only [h0, if_false] at hn
            cases hr : s.mem.read it with
            | none => simp [hr] at hn
            | some nd => exact ⟨nd, rfl⟩
          obtain ⟨nd, hr⟩ := hread
          simp only [dlist_iter_get_data, h0, if_false, hr, ih nxt rest hl]
          rw [← h]
          simp [dataAt, hr]

/-- On a list with a finite next-chain, a non-zero count and a non-`NULL` head, a full
iteration yields the nodes of the chain but the last, in order. -/
theorem iterators_of_chain {s : State V} {ch : List Nat} (hch : next_chain s = some ch)
    (hn : s.list.num_entries ≠ 0) (hh : s.list.head ≠ 0) :
    iterators s = some ch.dropLast := by
  cases ch with
  | nil => exact absurd (chain_loop_nil hch) hh
  | cons a rest =>
    have hlen := chain_loop_length_le hch
    have hp := (chain_loop_cons hch).1
    unfold iterators dlist_iter
    simp only [hn, if_false]
    rw [get_entry_of_chain hch]
    by_cases hr : rest = []
    · simp [hr, iterators_loop]
    · simp only [hr, if_false]
      exact iterators_loop_of_chain rest a _ _ _ hch hr (by simp at hlen; omega)

theorem visited_of_iterators {s : State V} {l : List Nat} (h : iterators s = some l) :
    visited s = some (l.map (dataAt s.mem)) := by
  unfold iterators at h
  unfold visited
  cases hi : dlist_iter s with
  | none => simp [hi] at h
  | some it =>
    simp only [hi] at h ⊢
    exact visit_loop_of_iterators _ _ _ h

theorem visited_of_values {s : State V} {vs : List (Option V)} (hvs : values s = some vs)
    (hn : s.list.num_entries ≠ 0) (hh : s.list.head ≠ 0) :
    visited s = some vs.dropLast := by
  obtain ⟨ch, hch, rfl⟩ := values_eq_some hvs
  rw [visited_of_iterators (iterators_of_chain hch hn hh)]
  simp [List.map_dropLast]

/-- With a zero count `dlist_iter` returns the terminal iterator at once. -/
theorem iterators_of_empty {s : State V} (hn : s.list.num_entries = 0) :
    dlist_iter s = some 0 ∧ iterators s = some [] ∧ visited s = some [] := by
  have h1 : dlist_iter s = some 0 := by simp [dlist_iter, hn]
  exact ⟨h1, by simp [iterators, h1, iterators_loop], by simp [visited, h1, visit_loop]⟩

/-! ## Runs of `dlist_add` and of `dlist_append` -/

/-- After the calls `dlist_add(d)` for `d` in `ds`, in that order, the chain holds the
values of `ds`, last added first, before the values it held. -/
theorem run_adds : ∀ (ds : List (Option V)) (s : State V) (ws : List (Option V)),
    values s = some ws → s.list.head ≠ 0 →
      ∃ s1, run_edits s (ds.map Edit.add) = some s1 ∧
        values s1 = some (ds.reverse ++ ws) ∧ s1.list.head ≠ 0 ∧
        s1.list.num_entries % SIZE_MOD = (s.list.num_entries + ds.length) % SIZE_MOD := by
  intro ds
  induction ds with
  | nil => intro s ws h hh; exact ⟨s, rfl, by simpa using h, hh, rfl⟩
  | cons d ds ih =>
    intro s ws h hh
    have hv := values_add h d
      { s.list with
        head := s.mem.length + 1,
        tail := if s.list.head = 0 then s.mem.length + 1 else s.list.tail,
        num_entries := count_inc s.list.num_entries } rfl s.released
    obtain ⟨s1, h1, h2, h3, h4⟩ := ih _ (d :: ws) hv (Nat.succ_ne_zero _)
    refine ⟨s1, ?_, ?_, h3, ?_⟩
    · simp only [List.map_cons, run_edits, apply_edit, dlist_add_eq]
      exact h1
    · rw [h2]; simp
    · rw [h4]
      simp only [count_inc, List.length_cons]
      rw [size_mod_eq]
      omega

/-- The values on the chain after `dlist_append` on a list whose `tail` is `NULL`: the
new node is the whole chain. -/
theorem append_null_values {s : State V} (ht : s.list.tail = 0) (data : Option V) :
    ∃ s1, dlist_append s data = some (data, s1) ∧ values s1 = some [data] ∧
      s1.list.head ≠ 0 ∧ s1.list.tail ≠ 0 ∧
      s1.list.num_entries = count_inc s.list.num_entries := by
  refine ⟨_, dlist_append_eq_null s data ht, ?_, Nat.succ_ne_zero _, Nat.succ_ne_zero _,
    rfl⟩
  have hseg : Seg (s.mem ++ [some ⟨0, 0, data⟩]) 0 (s.mem.length + 1)
      [s.mem.length + 1] 0 := by
    rw [Seg_cons]
    exact ⟨rfl, ⟨0, 0, data⟩, read_append_new _ _, Or.inl rfl, by simp [Seg_nil]⟩
  have hch : next_chain
      { list := { s.list with
                  head := s.mem.length + 1,
                  tail := s.mem.length + 1,
                  num_entries := count_inc s.list.num_entries },
        mem := s.mem ++ [some ⟨0, 0, data⟩],
        released := s.released } = some [s.mem.length + 1] :=
    Inv_next_chain hseg (by simp)
  rw [values_of_chain hch]
  simp [dataAt, read_append_new]

/-- The values on the chain after `dlist_append` on a well-linked list whose `tail` is
not `NULL`: the values it held, then the new one; `head` stays. -/
theorem append_live_values {s : State V} (h : Inv s) (ht0 : s.list.tail ≠ 0)
    (data : Option V) {vs : List (Option V)} (hvs : values s = some vs) :
    ∃ s1, dlist_append s data = some (data, s1) ∧ values s1 = some (vs ++ [data]) ∧
      s1.list.head = s.list.head ∧ s1.list.tail ≠ 0 ∧
      s1.list.num_entries = count_inc s.list.num_entries := by
  obtain ⟨ch, hseg, hnd, hlen, htail, hn⟩ := h
  have hch := Inv_next_chain hseg hlen
  rw [values_of_chain hch] at hvs
  simp only [Option.some.injEq] at hvs
  subst hvs
  rcases htail with ht | ht
  · exact absurd ht ht0
  obtain ⟨ys, rfl⟩ := List.getLast?_eq_some_iff.mp ht
  have hseg0 := hseg
  rw [Seg_append] at hseg
  obtain ⟨r, hpre, hlast⟩ := hseg
  rw [Seg_cons] at hlast
  obtain ⟨rfl, tnd, hrt, hprev, hnil⟩ := hlast
  rw [Seg_nil] at hnil
  have hbt := read_bounds hrt
  have hnd' := List.nodup_append.mp hnd
  have hold : ∀ a ∈ ys, Heap.read
      (s.mem.set (s.list.tail - 1) (some { tnd with next := s.mem.length + 1 })
        ++ [some ⟨s.list.tail, 0, data⟩]) a = s.mem.read a := by
    intro a ha
    have hab := Seg_bound hpre a ha
    have hne : a ≠ s.list.tail := by
      rintro rfl
      exact hnd'.2.2 ha (List.mem_singleton_self _)
    rw [read_append_old _ (by simpa using hab.2), read_set hbt.1 hbt.2]
    simp [hne]
  have htl : Heap.read
      (s.mem.set (s.list.tail - 1) (some { tnd with next := s.mem.length + 1 })
        ++ [some ⟨s.list.tail, 0, data⟩]) s.list.tail
      = some { tnd with next := s.mem.length + 1 } := by
    rw [read_append_old _ (by simpa using hbt.2), read_set hbt.1 hbt.2]
    simp
  have hnew : Heap.read
      (s.mem.set (s.list.tail - 1) (some { tnd with next := s.mem.length + 1 })
        ++ [some ⟨s.list.tail, 0, data⟩]) (s.mem.length + 1)
      = some ⟨s.list.tail, 0, data⟩ := read_append_at _ _ _ (by simp)
  have hseg1 : Seg
      (s.mem.set (s.list.tail - 1) (some { tnd with next := s.mem.length + 1 })
        ++ [some ⟨s.list.tail, 0, data⟩]) 0 s.list.head
      (ys ++ [s.list.tail, s.mem.length + 1]) 0 := by
    rw [Seg_append]
    refine ⟨s.list.tail, Seg_frame hold hpre, ?_⟩
    rw [Seg_cons]
    refine ⟨rfl, { tnd with next := s.mem.length + 1 }, htl, hprev, ?_⟩
    rw [Seg_cons]
    exact ⟨rfl, ⟨s.list.tail, 0, data⟩, hnew, Or.inr rfl, by simp [Seg_nil]⟩
  refine ⟨_, dlist_append_eq_live s data tnd hrt, ?_, rfl, Nat.succ_ne_zero _, rfl⟩
  have hch1 : next_chain
      { list := { s.list with
                  tail := s.mem.length + 1,
                  num_entries := count_inc s.list.num_entries },
        mem := s.mem.set (s.list.tail - 1) (some { tnd with next := s.mem.length + 1 })
                 ++ [some ⟨s.list.tail, 0, data⟩],
        released := s.released } = some (ys ++ [s.list.tail, s.mem.length + 1]) :=
    Inv_next_chain hseg1 (by simp at hlen ⊢; omega)
  rw [values_of_chain hch1]
  simp only [List.map_append, List.map_cons, List.map_nil, List.append_assoc,
    List.singleton_append, Option.some.injEq]
  congr 1
  · exact List.map_congr_left (fun a ha => by simp [dataAt, hold a ha])
  · simp [dataAt, htl, hnew, hrt]

/-- After the calls `dlist_append(d)` for `d` in `ds`, in that order, on a well-linked
list whose `tail` is not `NULL`, the chain holds the values it held, then those of
`ds`. -/
theorem run_appends : ∀ (ds : List (Option V)) (s : State V) (vs : List (Option V)),
    Inv s → s.list.tail ≠ 0 → values s = some vs →
      ∃ s1, run_edits s (ds.map Edit.append) = some s1 ∧
        values s1 = some (vs ++ ds) ∧ s1.list.head = s.list.head ∧
        s1.list.num_entries % SIZE_MOD = (s.list.num_entries + ds.length) % SIZE_MOD := by
  intro ds
  induction ds with
  | nil => intro s vs _ _ h; exact ⟨s, rfl, by simpa using h, rfl, rfl⟩
  | cons d ds ih =>
    intro s vs hinv ht h
    obtain ⟨s1, h1, h2, h3, h4, h5⟩ := append_live_values hinv ht d h
    obtain ⟨s1', h1', hinv1⟩ := Inv_append hinv d
    rw [h1] at h1'
    simp only [Option.some.injEq, Prod.mk.injEq, true_and] at h1'
    subst h1'
    obtain ⟨s2, g1, g2, g3, g4⟩ := ih s1 (vs ++ [d]) hinv1 h4 h2
    refine ⟨s2, ?_, ?_, by rw [g3, h3], ?_⟩
    · simp only [List.map_cons, run_edits, apply_edit, h1]
      exact g1
    · rw [g2]; simp
    · rw [g4, h5]
      simp only [count_inc, List.length_cons]
      rw [size_mod_eq]
      omega

/-- The last node of a finite chain has a `NULL` `next`. -/
theorem chain_loop_last {m : Heap V} : ∀ (ys : List Nat) (a fuel p : Nat),
    chain_loop m fuel p = some (ys ++ [a]) → ∃ nd, m.read a = some nd ∧ nd.next = 0 := by
  intro ys
  induction ys with
  | nil =>
    intro a fuel p h
    obtain ⟨_, f, nd, _, hr, hrest⟩ := chain_loop_cons h
    exact ⟨nd, hr, chain_loop_nil hrest⟩
  | cons y ys ih =>
    intro a fuel p h
    obtain ⟨_, f, nd, _, _, hrest⟩ := chain_loop_cons h
    exact ih a f nd.next hrest

/-- C25, the code at the failing input.  After `dlist_init` with the string comparator,
`append("a")` and `add("b")` the chain is `"b"`, `"a"`, and the node of `"a"` still has
`prev == NULL`, `dlist_add` not having set it.  `remove("a")` therefore unlinks it as if
it were the only node: `head` and `tail` become `NULL` while `num_entries` goes from 2
to 1.  The next-chain from `head` is now finite (it is empty) and `num_entries > 0`, and
`dlist_iter` does not yield the terminal iterator or any other: it passes the test on
`num_entries` and calls `dlist_get_entry(list, NULL)`, which reads `cur->next` through
the `NULL` pointer.  An iteration of this list has no defined result. -/
theorem iteration_from_null_head_is_undefined :
    ∃ s1 s2 : State String,
      dlist_append (fresh dlist_compare_string) (some "a") = some (some "a", s1) ∧
      dlist_add s1 (some "b") = some (some "b", s2) ∧
      values s2 = some [some "b", some "a"] ∧
      s2.mem.read 2 = some ⟨0, 0, some "a"⟩ ∧
      dlist_remove s2 (some "a") = some (some "a", example_headless) ∧
      next_chain example_headless = some [] ∧
      example_headless.list.num_entries = 1 ∧
      example_headless.list.head = 0 ∧
      dlist_get_entry example_headless 0 = none ∧
      dlist_iter example_headless = none ∧
      iterators example_headless = none ∧
      visited example_headless = none :=
  ⟨_, _, rfl, rfl, by decide, by decide, rfl, rfl, rfl, rfl, rfl, rfl, rfl, rfl⟩

/-- Iteration where `head` is not `NULL`.  For every list whose next-chain from `head` is
a finite list `ch`:
when `num_entries == 0`, `dlist_iter` returns the terminal iterator; when
`num_entries != 0` and `head` is not `NULL`, `dlist_iter` followed by repeated
`dlist_iter_next` yields, in order, exactly the nodes of `ch` other than its last node,
then the terminal iterator, and the last node, the one whose `next` is `NULL`, is not
among them.  Consequently, for fewer than `2^64` calls: a freshly initialised list
followed by `dlist_add` of the values `ds` iterates exactly the values of `ds`, most
recently added first; followed instead by one or more `dlist_append` of the values `ds`
it iterates all of `ds` but its last value. -/
theorem iteration_yields_all_but_last (cmp : Cmp V) :
    (∀ (s : State V) (ch : List Nat), next_chain s = some ch →
      (s.list.num_entries = 0 →
        dlist_iter s = some 0 ∧ iterators s = some [] ∧ visited s = some []) ∧
      (s.list.num_entries ≠ 0 → s.list.head ≠ 0 →
        iterators s = some ch.dropLast ∧
        visited s = some (ch.dropLast.map (dataAt s.mem)) ∧
        ∀ a, ch.getLast? = some a →
          a ∉ ch.dropLast ∧ ∃ nd, s.mem.read a = some nd ∧ nd.next = 0)) ∧
    (∀ ds : List (Option V), ds.length < SIZE_MOD →
      ∃ s1, run_edits (fresh cmp) (ds.map Edit.add) = some s1 ∧
        visited s1 = some ds.reverse) ∧
    (∀ ds : List (Option V), ds ≠ [] → ds.length < SIZE_MOD →
      ∃ s1, run_edits (fresh cmp) (ds.map Edit.append) = some s1 ∧
        visited s1 = some ds.dropLast) := by
  refine ⟨?_, ?_, ?_⟩
  · intro s ch hch
    refine ⟨iterators_of_empty, fun hn hh => ?_⟩
    have hit := iterators_of_chain hch hn hh
    refine ⟨hit, visited_of_iterators hit, ?_⟩
    intro a ha
    have hsplit := List.dropLast_append_getLast? a ha
    have hnd := chain_loop_nodup ch _ _ hch
    rw [← hsplit] at hnd hch
    refine ⟨fun hmem => ?_, chain_loop_last _ _ _ _ hch⟩
    exact (List.nodup_append.mp hnd).2.2 hmem (List.mem_singleton_self _)
  · intro ds hlt
    obtain ⟨hv, _, _, _⟩ := init_observations (blank V cmp) (some cmp) cmp
    obtain ⟨s1, h1, h2, h3, h4⟩ := run_adds ds (fresh cmp) [none] hv (Nat.succ_ne_zero _)
    refine ⟨s1, h1, ?_⟩
    have h0 : (fresh cmp).list.num_entries = 0 := rfl
    rw [h0, size_mod_eq] at h4
    rw [size_mod_eq] at hlt
    by_cases hn : s1.list.num_entries = 0
    · have hds : ds = [] := by
        apply List.eq_nil_of_length_eq_zero
        rw [hn] at h4
        omega
      rw [(iterators_of_empty hn).2.2, hds]
      rfl
    · rw [visited_of_values h2 hn h3]
      simp
  · intro ds hne hlt
    cases ds with
    | nil => exact absurd rfl hne
    | cons d ds =>
      obtain ⟨s1, h1, h2, h3, h4, h5⟩ :=
        append_null_values (show (fresh cmp).list.tail = 0 from rfl) d
      obtain ⟨s1', h1', hinv1⟩ := Inv_append (Inv_init (blank V cmp) (some cmp) cmp) d
      have h1f : dlist_append (fresh cmp) d = some (d, s1') := h1'
      rw [h1] at h1f
      simp only [Option.some.injEq, Prod.mk.injEq, true_and] at h1f
      subst h1f
      obtain ⟨s2, g1, g2, g3, g4⟩ := run_appends ds s1 [d] hinv1 h4 h2
      refine ⟨s2, ?_, ?_⟩
      · simp only [List.map_cons, run_edits, apply_edit, h1]
        exact g1
      · have h0 : (fresh cmp).list.num_entries = 0 := rfl
        rw [h5, h0] at g4
        simp only [count_inc, List.length_cons] at g4 hlt
        rw [size_mod_eq] at g4 hlt
        have hn : s2.list.num_entries ≠ 0 := by
          intro hz
          rw [hz] at g4
          omega
        rw [visited_of_values g2 hn (by rw [g3]; exact h3)]
        rfl

/-- Example: the list `"c"`, `"a"`, `"b"` (nodes 4, 2, 3) iterates the
nodes 4 and 2, the values `"c"` and `"a"`; two adds on a fresh list iterate both values,
the second first; two appends on a fresh list iterate the first value only. -/
theorem iteration_yields_all_but_last_example :
    next_chain example_list = some [4, 2, 3] ∧
      example_list.list.num_entries ≠ 0 ∧ example_list.list.head ≠ 0 ∧
      iterators example_list = some [4, 2] ∧
      visited example_list = some [some "c", some "a"] ∧
      (∃ s1, run_edits (fresh dlist_compare_string)
          [Edit.add (some "k1"), Edit.add (some "k2")] = some s1 ∧
        visited s1 = some [some "k2", some "k1"]) ∧
      (∃ s1, run_edits (fresh dlist_compare_string)
          [Edit.append (some "a"), Edit.append (some "b")] = some s1 ∧
        visited s1 = some [some "a"]) := by
  obtain ⟨hgen, hadd, happ⟩ := iteration_yields_all_but_last dlist_compare_string
  have h := (hgen example_list [4, 2, 3] rfl).2 (by decide) (by decide)
  exact ⟨rfl, by decide, by decide, h.1, h.2.1,
    hadd [some "k1", some "k2"] (by rw [size_mod_eq]; decide),
    happ [some "a", some "b"] (by simp) (by rw [size_mod_eq]; decide)⟩

end DlistLib
